import Mathlib

/-!
Verification development for the weekly production-plan scheduling engine
(`src/utils/scheduler.ts`).

Modelling conventions of the shallow embedding:

* Calendar dates are modelled as integer day indices (days since the JS epoch
  1970-01-01, which was a Thursday, so `getDay` of day `d` is `(d + 4) % 7`).
  The engine only ever manipulates midnight-aligned dates (it advances the
  cursor day by day), so a day index captures a `Date` value faithfully; the
  `YYYY-MM-DD` date key of a midnight date is the date itself, so the day
  index also serves as the `dateKey` of the `dailyHoursUsed` map.
* All numeric quantities (tons, hours, rates) are rationals; the source's IEEE
  doubles are modelled exactly.
* `PlanItem.startTime` is modelled by the pair (`date`, `startHour`): the
  source builds the ISO timestamp from the cursor date and
  `schedule.currentHour`, so the absolute start instant in hours is
  `24 * date + startHour`.
* The engine reads the wall clock (`new Date()`) to find the Monday of the
  planning week; that read is made explicit as the `today` argument of
  `generateProductionPlan`.
* Diagnostics are modelled as structured values (`Diag`) carrying exactly the
  data that the source interpolates into its message strings; the surrounding
  fixed text is presentation only.
* The unbounded `while (remainingQuantity > 0)` loop and the recursive
  day-advance in `scheduleTask` are given explicit fuel.  The fuel bounds are
  generous (the source loop advances a bounded cursor or consumes a full day
  of capacity on every iteration), so no real execution is cut short.
-/

/-- A production line (`Line` in `types.ts`). -/
structure Line where
  id : String
  name : String
deriving DecidableEq, Repr

/-- A product reference (`Reference` in `types.ts`). -/
structure Reference where
  id : String
  name : String
deriving DecidableEq, Repr

/-- Tons per hour a line achieves on a reference (`Throughput` in `types.ts`). -/
structure Throughput where
  lineId : String
  referenceId : String
  rate : ℚ
deriving DecidableEq, Repr

/-- Hours a line is available on a weekday, 0 = Monday (`Availability`). -/
structure Availability where
  lineId : String
  dayOfWeek : ℕ
  hoursAvailable : ℚ
deriving DecidableEq, Repr

/-- Hours needed to switch a line between two references (`SetupTime`). -/
structure SetupTime where
  lineId : String
  fromReferenceId : String
  toReferenceId : String
  duration : ℚ
deriving DecidableEq, Repr

/-- A demand: reference, tons, optional deadline (a day index). -/
structure Demand where
  referenceId : String
  quantity : ℚ
  deadline : Option ℤ
deriving DecidableEq, Repr

/-- One scheduled block (`PlanItem`).  `startHour` is the hour-of-day at which
the block starts; the source's `startTime`/`endTime` ISO strings are recovered
as `24 * date + startHour` and `24 * date + startHour + duration`. -/
structure PlanItem where
  date : ℤ
  lineId : String
  referenceId : String
  quantity : ℚ
  duration : ℚ
  startHour : ℚ
  isSetup : Bool
deriving DecidableEq, Repr

/-- The configuration snapshot handed to the engine (`AppState`). -/
structure AppState where
  lines : List Line
  references : List Reference
  throughputs : List Throughput
  availabilities : List Availability
  setupTimes : List SetupTime
  demands : List Demand
deriving DecidableEq, Repr

/-- Per-line mutable cursor state (`LineSchedule` in `scheduler.ts`).
`dailyHoursUsed` is the source's `Map<dateKey, number>` as an association
list. -/
structure LineSchedule where
  lineId : String
  currentDate : ℤ
  currentHour : ℚ
  lastReferenceId : Option String
  dailyHoursUsed : List (ℤ × ℚ)
deriving DecidableEq, Repr

/-- Structured form of the engine's diagnostic strings: each constructor is one
of the `errors.push`/`warnings.push` message templates of `scheduler.ts`,
carrying the data the source interpolates into the template. -/
inductive Diag where
  | noLines
  | noReferences
  | noThroughputs
  | noDemands
  | noAvailability
  | noSetupTimes
  | cannotScheduleDeadline (referenceId : String) (deadline : ℤ)
  | cannotScheduleNoLine (referenceId : String)
  | partialDeadline (referenceId : String) (scheduled unmet : ℚ) (deadline : ℤ)
  | partialWeek (referenceId : String) (scheduled unmet : ℚ)
  | cannotFitDeadline (referenceId : String) (remaining : ℚ) (deadline : ℤ)
  | cannotFitWeek (referenceId : String) (remaining : ℚ)
  | cannotFitSetup (referenceId : String) (setupDuration : ℚ) (lineName : Option String)
deriving DecidableEq, Repr

/-- Result triple of `generateProductionPlan`. -/
structure PlanResult where
  planItems : List PlanItem
  errors : List Diag
  warnings : List Diag
deriving DecidableEq, Repr

/-- JS `Date.getDay()` for a day index: 0 = Sunday … 6 = Saturday
(1970-01-01, day 0, was a Thursday). -/
def jsDow (d : ℤ) : ℕ := ((d + 4) % 7).toNat

/-- The source's JS-day to EU-day conversion
(`jsDayOfWeek === 0 ? 6 : jsDayOfWeek - 1`). -/
def jsDayToEu (js : ℕ) : ℕ := if js = 0 then 6 else js - 1

/-- EU weekday (0 = Monday … 6 = Sunday) of a day index. -/
def euDow (d : ℤ) : ℕ := jsDayToEu (jsDow d)

/-- Read a date's entry of a `dailyHoursUsed` map
(`dailyHoursUsed.get(dateKey) || 0`). -/
def lookupUsed (m : List (ℤ × ℚ)) (d : ℤ) : ℚ :=
  match m.find? (fun p => decide (p.1 = d)) with
  | some p => p.2
  | none => 0

/-- Overwrite a date's entry of a `dailyHoursUsed` map
(`dailyHoursUsed.set(dateKey, v)`). -/
def setUsed : List (ℤ × ℚ) → ℤ → ℚ → List (ℤ × ℚ)
  | [], d, v => [(d, v)]
  | (k, x) :: rest, d, v =>
      if k = d then (d, v) :: rest else (k, x) :: setUsed rest d v

/-- `state.availabilities.find(a => a.lineId === lineId && a.dayOfWeek === dayOfWeek)`. -/
def findAvail (state : AppState) (lineId : String) (dow : ℕ) : Option Availability :=
  state.availabilities.find? (fun a => decide (a.lineId = lineId) && decide (a.dayOfWeek = dow))

/-- `state.throughputs.find(t => t.lineId === lineId && t.referenceId === referenceId)`. -/
def findThroughput (state : AppState) (lineId referenceId : String) : Option Throughput :=
  state.throughputs.find? (fun t => decide (t.lineId = lineId) && decide (t.referenceId = referenceId))

/-- `getSetupTime` of `scheduler.ts`: configured duration, defaulting to 0. -/
def getSetupTime (lineId fromRefId toRefId : String) (state : AppState) : ℚ :=
  match state.setupTimes.find? (fun s =>
      decide (s.lineId = lineId) && decide (s.fromReferenceId = fromRefId)
        && decide (s.toReferenceId = toRefId)) with
  | some s => s.duration
  | none => 0

/-- `getAvailableHours` of `scheduler.ts`: configured hours for the cursor
date's weekday minus hours already used that date, clamped at 0; 0 when no
availability entry exists. -/
def getAvailableHours (schedule : LineSchedule) (lineId : String) (state : AppState) : ℚ :=
  match findAvail state lineId (euDow schedule.currentDate) with
  | none => 0
  | some a => max 0 (a.hoursAvailable - lookupUsed schedule.dailyHoursUsed schedule.currentDate)

/-- Advance a line's cursor to the next day
(`schedule.currentDate.setDate(... + 1); schedule.currentHour = 0`). -/
def advanceDay (s : LineSchedule) : LineSchedule :=
  ⟨s.lineId, s.currentDate + 1, 0, s.lastReferenceId, s.dailyHoursUsed⟩

/-- Recursive core of `scheduleTask`.  The fuel only bounds the day-advance
recursion; `scheduleTask` below supplies enough fuel that the cursor reaches
`endDate` (where the source returns `null`) before the fuel runs out. -/
def scheduleTaskGo (state : AppState) (endDate : ℤ) (lineId referenceId : String)
    (quantity duration : ℚ) (isSetup : Bool) :
    ℕ → LineSchedule → Option PlanItem × LineSchedule
  | 0, schedule => (none, schedule)
  | fuel + 1, schedule =>
    if schedule.currentDate ≥ endDate then
      (none, schedule)
    else
      let availableHours := getAvailableHours schedule lineId state
      if duration > availableHours then
        let s' := advanceDay schedule
        if s'.currentDate ≥ endDate then
          (none, s')
        else
          scheduleTaskGo state endDate lineId referenceId quantity duration isSetup fuel s'
      else
        let dateKey := schedule.currentDate
        let item : PlanItem :=
          ⟨dateKey, lineId, referenceId, quantity, duration, schedule.currentHour, isSetup⟩
        let usedHours := lookupUsed schedule.dailyHoursUsed dateKey
        let s' : LineSchedule :=
          ⟨schedule.lineId, schedule.currentDate, schedule.currentHour + duration,
            schedule.lastReferenceId, setUsed schedule.dailyHoursUsed dateKey (usedHours + duration)⟩
        (some item, s')

/-- `scheduleTask` of `scheduler.ts`: place a block at the line's cursor,
advancing across days while the block does not fit, failing once the cursor
reaches `endDate`.  The mutated schedule is returned alongside the result
(the source mutates it in place, so a failed attempt still moves the
cursor). -/
def scheduleTask (state : AppState) (endDate : ℤ) (lineId referenceId : String)
    (quantity duration : ℚ) (isSetup : Bool) (schedule : LineSchedule) :
    Option PlanItem × LineSchedule :=
  scheduleTaskGo state endDate lineId referenceId quantity duration isSetup
    ((endDate - schedule.currentDate).toNat + 1) schedule

/-- The 7-day remaining-capacity probe of `findBestLine`
(`Array.from({length: 7}, ...).reduce(...)`): for each of the next 7 days from
the schedule's cursor that lies before `endDate`, the line's configured hours
minus hours already used, clamped at 0, summed. -/
def weekRemainingCapacity (sched : LineSchedule) (lineId : String) (state : AppState)
    (endDate : ℤ) : ℚ :=
  (List.range 7).foldl (fun sum dayIndex =>
    let checkDate := sched.currentDate + (dayIndex : ℤ)
    if checkDate ≥ endDate then sum
    else
      match findAvail state lineId (euDow checkDate) with
      | none => sum
      | some a => sum + max 0 (a.hoursAvailable - lookupUsed sched.dailyHoursUsed checkDate)) 0

/-- `findBestLine` of `scheduler.ts` (the weighted cost-sum heuristic): scans
the line schedules in order and keeps the line with the strictly smallest
`cost = productionTime + setupTime + setupPenalty + throughputBonus`. -/
def findBestLine (referenceId : String) (quantity : ℚ) (lineSchedules : List LineSchedule)
    (state : AppState) (endDate : ℤ) (planItems : List PlanItem) : Option (String × ℚ) :=
  let existingLine : Option String :=
    ((planItems.filter (fun p => decide (p.referenceId = referenceId) && !p.isSetup)).map
      (·.lineId)).head?
  let existingLineHasCapacity : Bool :=
    match existingLine with
    | none => false
    | some el =>
      match lineSchedules.find? (fun s => decide (s.lineId = el)) with
      | none => false
      | some es =>
        decide (es.currentDate < endDate)
          && decide (weekRemainingCapacity es el state endDate > 24)
  lineSchedules.foldl (fun best sched =>
    if sched.currentDate ≥ endDate then best
    else
      match findThroughput state sched.lineId referenceId with
      | none => best
      | some throughput =>
        let productionTime := quantity / throughput.rate
        let basePenalty : ℚ :=
          if existingLine = some sched.lineId then
            if weekRemainingCapacity sched sched.lineId state endDate > 24 then -500 else 0
          else if existingLine.isSome && decide (existingLine ≠ some sched.lineId)
              && existingLineHasCapacity then 50
          else 0
        let setupPair : ℚ × ℚ :=
          match sched.lastReferenceId with
          | some r =>
            if r ≠ referenceId then (getSetupTime sched.lineId r referenceId state, 50) else (0, 0)
          | none => (0, 0)
        let setupTime := setupPair.1
        let setupPenalty := basePenalty + setupPair.2
        let throughputBonus := -throughput.rate * (1 / 2)
        let cost := productionTime + setupTime + setupPenalty + throughputBonus
        match best with
        | none => some (sched.lineId, cost)
        | some b => if cost < b.2 then some (sched.lineId, cost) else best) none

/-- Overall state threaded through the per-demand loop: the line schedules, the
append-only plan-item list and the two diagnostic lists of one planning run. -/
structure SchedSt where
  schedules : List LineSchedule
  planItems : List PlanItem
  errors : List Diag
  warnings : List Diag
deriving DecidableEq, Repr

/-- Write an updated schedule back into the schedule map
(the source mutates the `LineSchedule` object held by the `Map`). -/
def updateSched (schedules : List LineSchedule) (s' : LineSchedule) : List LineSchedule :=
  schedules.map (fun s => if s.lineId = s'.lineId then s' else s)

/-- Append an error diagnostic (`errors.push(...)`). -/
def addErr (st : SchedSt) (e : Diag) : SchedSt :=
  ⟨st.schedules, st.planItems, st.errors ++ [e], st.warnings⟩

/-- Append a warning diagnostic (`warnings.push(...)`). -/
def addWarn (st : SchedSt) (w : Diag) : SchedSt :=
  ⟨st.schedules, st.planItems, st.errors, st.warnings ++ [w]⟩

/-- The "Cannot fit remaining … " warning, with the source's deadline /
no-deadline wording branch. -/
def fitWarn (d : Demand) (remaining : ℚ) : Diag :=
  match d.deadline with
  | some dl => .cannotFitDeadline d.referenceId remaining dl
  | none => .cannotFitWeek d.referenceId remaining

/-- `state.lines.find(l => l.id === lineId)?.name`. -/
def lineNameOf (state : AppState) (lineId : String) : Option String :=
  (state.lines.find? (fun l => decide (l.id = lineId))).map (·.name)

/-- Outcome of one iteration of the per-demand `while` loop: either the loop
continues with updated state and remaining quantity, or it stops (a `break`
in the source, or the demand reaching zero remaining happens at the loop
guard instead). -/
inductive IterRes where
  | cont (st : SchedSt) (rem : ℚ)
  | stop (st : SchedSt) (rem : ℚ)
deriving Repr

/-- The production phase of one loop iteration (the code of
`generateProductionPlan` from `// Calculate how much we can produce` to the
end of the loop body): consume today's remaining hours on the selected line,
or advance its day. -/
def prodPhase (state : AppState) (d : Demand) (eff : ℤ) (best1 : String)
    (throughput : Throughput) (st : SchedSt) (rem : ℚ) (sched : LineSchedule) : IterRes :=
  let availableHours := getAvailableHours sched best1 state
  if availableHours ≤ 0 then
    let sched' := advanceDay sched
    let st' : SchedSt :=
      ⟨updateSched st.schedules sched', st.planItems, st.errors, st.warnings⟩
    if sched'.currentDate ≥ eff then
      .stop (addWarn st' (fitWarn d rem)) rem
    else
      .cont st' rem
  else
    let hoursNeeded := rem / throughput.rate
    let hoursToUse := min hoursNeeded availableHours
    let quantityToSchedule := hoursToUse * throughput.rate
    let placed := scheduleTask state eff best1 d.referenceId
      quantityToSchedule hoursToUse false sched
    match placed.1 with
    | some item =>
      let sched2 : LineSchedule :=
        ⟨placed.2.lineId, placed.2.currentDate, placed.2.currentHour,
          some d.referenceId, placed.2.dailyHoursUsed⟩
      let st' : SchedSt :=
        ⟨updateSched st.schedules sched2, st.planItems ++ [item],
          st.errors, st.warnings⟩
      let rem' := rem - quantityToSchedule
      if quantityToSchedule = 0 then
        let sched3 := advanceDay sched2
        let st'' : SchedSt :=
          ⟨updateSched st'.schedules sched3, st'.planItems, st'.errors, st'.warnings⟩
        if sched3.currentDate ≥ eff then
          .stop (addWarn st'' (fitWarn d rem')) rem'
        else
          .cont st'' rem'
      else
        .cont st' rem'
    | none =>
      let st' : SchedSt :=
        ⟨updateSched st.schedules placed.2, st.planItems, st.errors, st.warnings⟩
      .stop (addWarn st' (.cannotFitWeek d.referenceId rem)) rem

/-- One iteration of the body of `while (remainingQuantity > 0)` in
`generateProductionPlan` (called only when `rem > 0`): pick a line with
`findBestLine`, emit the error/warning on failure, otherwise place the setup
block if the line is switching references and then hand over to `prodPhase`. -/
def demandIter (state : AppState) (d : Demand) (eff : ℤ) (initialQ : ℚ)
    (st : SchedSt) (rem : ℚ) : IterRes :=
  match findBestLine d.referenceId rem st.schedules state eff st.planItems with
  | none =>
    if rem = initialQ then
      match d.deadline with
      | some dl => .stop (addErr st (.cannotScheduleDeadline d.referenceId dl)) rem
      | none => .stop (addErr st (.cannotScheduleNoLine d.referenceId)) rem
    else
      match d.deadline with
      | some dl =>
          .stop (addWarn st (.partialDeadline d.referenceId (initialQ - rem) rem dl)) rem
      | none => .stop (addWarn st (.partialWeek d.referenceId (initialQ - rem) rem)) rem
  | some best =>
    match st.schedules.find? (fun s => decide (s.lineId = best.1)) with
    | none => .stop st rem
    | some sched0 =>
      if sched0.currentDate ≥ eff then
        .stop (addWarn st (fitWarn d rem)) rem
      else
        match findThroughput state best.1 d.referenceId with
        | none => .stop st rem
        | some throughput =>
          match sched0.lastReferenceId with
          | some lastRef =>
            if lastRef ≠ d.referenceId then
              let setupTime := getSetupTime best.1 lastRef d.referenceId state
              let setupDuration := if setupTime > 0 then setupTime else 0
              let placedSetup := scheduleTask state eff best.1 d.referenceId 0
                setupDuration true sched0
              let st1 : SchedSt :=
                ⟨updateSched st.schedules placedSetup.2, st.planItems, st.errors, st.warnings⟩
              match placedSetup.1 with
              | some setupItem =>
                prodPhase state d eff best.1 throughput
                  ⟨st1.schedules, st1.planItems ++ [setupItem], st1.errors, st1.warnings⟩
                  rem placedSetup.2
              | none =>
                if setupDuration > 0 then
                  .stop (addWarn st1
                    (.cannotFitSetup d.referenceId setupDuration (lineNameOf state best.1))) rem
                else
                  prodPhase state d eff best.1 throughput st1 rem placedSetup.2
            else
              prodPhase state d eff best.1 throughput st rem sched0
          | none =>
            prodPhase state d eff best.1 throughput st rem sched0

/-- The per-demand `while (remainingQuantity > 0)` loop, with fuel. -/
def demandLoop (state : AppState) (d : Demand) (eff : ℤ) (initialQ : ℚ) :
    ℕ → SchedSt → ℚ → SchedSt × ℚ
  | 0, st, rem => (st, rem)
  | fuel + 1, st, rem =>
    if rem > 0 then
      match demandIter state d eff initialQ st rem with
      | .stop st' rem' => (st', rem')
      | .cont st' rem' => demandLoop state d eff initialQ fuel st' rem'
    else (st, rem)

/-- Fuel handed to `demandLoop`: every loop iteration either stops, advances a
line's bounded day cursor, or zeroes out one (line, day) slot of availability,
so `16 * lines + 16` iterations always outlast the source's loop. -/
def schedFuel (state : AppState) : ℕ := 16 * state.lines.length + 16

/-- Processing of one demand by `generateProductionPlan`: compute the effective
deadline (`min(deadline, endDate)`) and run the scheduling loop starting from
the full quantity.  Returns the updated run state and the demand's final
remaining quantity. -/
def processDemand (state : AppState) (endDate : ℤ) (st : SchedSt) (d : Demand) :
    SchedSt × ℚ :=
  let deadlineDate := match d.deadline with | some x => x | none => endDate
  let eff := if deadlineDate < endDate then deadlineDate else endDate
  demandLoop state d eff d.quantity (schedFuel state) st d.quantity

/-- The comparator of `sortDemands` (`[...state.demands].sort(...)`):
negative means `a` before `b`. -/
def demandCmp (a b : Demand) : ℚ :=
  match a.deadline, b.deadline with
  | some da, some db => (da : ℚ) - (db : ℚ)
  | some _, none => -1
  | none, some _ => 1
  | none, none => b.quantity - a.quantity

/-- Stable insertion of `a` into an already comparator-sorted list: `a` goes
after every element that compares `≤ 0` against it, which is how a stable
`Array.prototype.sort` places equal-comparing elements. -/
def stableInsert (a : Demand) : List Demand → List Demand
  | [] => [a]
  | b :: l => if demandCmp b a ≤ 0 then b :: stableInsert a l else a :: b :: l

/-- The demand sort of `generateProductionPlan`: JS `sort` is stable and
`demandCmp` is induced by a total preorder, so the result is the stable
insertion sort by that comparator. -/
def sortDemands (demands : List Demand) : List Demand :=
  demands.foldl (fun acc a => stableInsert a acc) []

/-- Fresh per-line schedules, cursors at the week's Monday
(`state.lines.forEach(...)`). -/
def initSchedules (state : AppState) (startDate : ℤ) : List LineSchedule :=
  state.lines.map (fun l => ⟨l.id, startDate, 0, none, []⟩)

/-- The Monday of the week containing `today` (the source's `startDate`
computation from `new Date()`, via `getDay` and `daysToMonday`). -/
def weekStart (today : ℤ) : ℤ :=
  let currentDay := jsDow today
  let daysToMonday : ℤ := if currentDay = 0 then 6 else (currentDay : ℤ) - 1
  today - daysToMonday

/-- The scheduling phase of `generateProductionPlan` after validation: fresh
line schedules at the week's Monday, demands sorted, each processed in turn. -/
def runSchedule (state : AppState) (today : ℤ) : SchedSt :=
  let startDate := weekStart today
  let endDate := startDate + 7
  let warns0 : List Diag := if state.setupTimes.isEmpty then [.noSetupTimes] else []
  let st0 : SchedSt := ⟨initSchedules state startDate, [], [], warns0⟩
  (sortDemands state.demands).foldl (fun st d => (processDemand state endDate st d).1) st0

/-- `generateProductionPlan` of `scheduler.ts`.  `today` is the day index the
source obtains from `new Date()`; the engine derives the planning week
(Monday `startDate` to `endDate = startDate + 7`) from it. -/
def generateProductionPlan (state : AppState) (today : ℤ) : PlanResult :=
  if state.lines.isEmpty then ⟨[], [.noLines], []⟩
  else if state.references.isEmpty then ⟨[], [.noReferences], []⟩
  else if state.throughputs.isEmpty then ⟨[], [.noThroughputs], []⟩
  else if state.demands.isEmpty then ⟨[], [.noDemands], []⟩
  else if state.availabilities.isEmpty then ⟨[], [.noAvailability], []⟩
  else
    let stF := runSchedule state today
    ⟨stF.planItems, stF.errors, stF.warnings⟩

/-- Configured hours of a line on a calendar date: the `hoursAvailable` of the
Availability entry for the date's weekday, 0 when no entry exists. -/
def cfgHours (state : AppState) (lineId : String) (d : ℤ) : ℚ :=
  match findAvail state lineId (euDow d) with
  | none => 0
  | some a => a.hoursAvailable

/-- The plan items that belong to one line, in plan order. -/
def itemsOfLine (items : List PlanItem) (lineId : String) : List PlanItem :=
  items.filter (fun p => decide (p.lineId = lineId))

/-- Total duration scheduled on a line on a date. -/
def sumDurOn (items : List PlanItem) (lineId : String) (d : ℤ) : ℚ :=
  (((itemsOfLine items lineId).filter (fun p => decide (p.date = d))).map (·.duration)).sum

/-- Total tons of non-setup plan items for a reference. -/
def sumQtyFor (items : List PlanItem) (referenceId : String) : ℚ :=
  ((items.filter (fun p => decide (p.referenceId = referenceId) && !p.isSetup)).map
    (·.quantity)).sum

/-- Total tons demanded for a reference over all demands of the snapshot. -/
def demandTotal (state : AppState) (referenceId : String) : ℚ :=
  ((state.demands.filter (fun d => decide (d.referenceId = referenceId))).map (·.quantity)).sum

/-- Absolute start instant of a plan item, in hours since day 0. -/
def absStart (p : PlanItem) : ℚ := 24 * (p.date : ℚ) + p.startHour

/-- Absolute end instant of a plan item, in hours since day 0. -/
def absEnd (p : PlanItem) : ℚ := absStart p + p.duration

/-- A list of plan items is back-to-back aligned when every item's start hour
equals the total duration of the earlier items of the list that share its
date. -/
def startsAligned (l : List PlanItem) : Prop :=
  ∀ pre p post, l = pre ++ p :: post →
    p.startHour = ((pre.filter (fun q => decide (q.date = p.date))).map (·.duration)).sum

/-- Reference id of the most recent non-setup item of a line, if any: the value
the engine keeps in `lastReferenceId`. -/
def lastProducedRef (items : List PlanItem) (lineId : String) : Option String :=
  (((itemsOfLine items lineId).filter (fun p => !p.isSetup)).map (·.referenceId)).getLast?

/-- A configuration snapshot that satisfies the spec's data-model ranges:
line ids are unique identities, throughput rates are positive, availability
hours lie in `0..24`, setup durations are nonnegative and demand quantities
are positive. -/
def ValidState (state : AppState) : Prop :=
  (state.lines.map (·.id)).Nodup
    ∧ (∀ t ∈ state.throughputs, 0 < t.rate)
    ∧ (∀ a ∈ state.availabilities, 0 ≤ a.hoursAvailable ∧ a.hoursAvailable ≤ 24)
    ∧ (∀ s ∈ state.setupTimes, 0 ≤ s.duration)
    ∧ (∀ d ∈ state.demands, 0 < d.quantity)

instance (state : AppState) : Decidable (ValidState state) := by
  unfold ValidState; infer_instance

/-- Modelled from the spec: `totalCapacityTons` of the Compatibility Analyzer
(§4.1) — throughput rate times the line's configured hours over every day of
the Monday-to-Sunday horizon. -/
def totalCapacityTons (state : AppState) (lineId referenceId : String) (startDate : ℤ) : ℚ :=
  match findThroughput state lineId referenceId with
  | none => 0
  | some t => t.rate * ((List.range 7).map (fun i => cfgHours state lineId (startDate + i))).sum

/-- Modelled from the spec: `identifyPreferredLine` (§4.1) — among lines with a
Throughput entry for the reference, the one with the highest rate, ties broken
by highest `totalCapacityTons`; this function is absent from the sources under
`src/`, which only contain the superseded cost-sum selector. -/
def identifyPreferredLine (state : AppState) (referenceId : String) (startDate : ℤ) :
    Option String :=
  state.lines.foldl (fun best l =>
    match findThroughput state l.id referenceId with
    | none => best
    | some t =>
      match best with
      | none => some (l.id, t.rate, totalCapacityTons state l.id referenceId startDate)
      | some b =>
        let cap := totalCapacityTons state l.id referenceId startDate
        if t.rate > b.2.1 ∨ (t.rate = b.2.1 ∧ cap > b.2.2) then some (l.id, t.rate, cap)
        else some b) none |>.map (·.1)

/-- Remaining available hours of a line over the days from its cursor date
through `eff` inclusive ("up to the effective deadline", §4.3 rule 1). -/
def remainingHoursThrough (sched : LineSchedule) (lineId : String) (state : AppState)
    (eff : ℤ) : ℚ :=
  (((List.range ((eff - sched.currentDate).toNat + 1)).map (fun i =>
    let d := sched.currentDate + (i : ℤ)
    max 0 (cfgHours state lineId d - lookupUsed sched.dailyHoursUsed d)))).sum

/-- Remaining available hours of a line over the days from its cursor date up
to but excluding `eff` ("before the effective deadline", §4.3 rules 2-3). -/
def remainingHoursBefore (sched : LineSchedule) (lineId : String) (state : AppState)
    (eff : ℤ) : ℚ :=
  (((List.range (eff - sched.currentDate).toNat).map (fun i =>
    let d := sched.currentDate + (i : ℤ)
    max 0 (cfgHours state lineId d - lookupUsed sched.dailyHoursUsed d)))).sum

/-- Modelled from the spec: `selectLineForDemand` (§4.3), the canonical 3-tier
priority policy (stickiness → preferred line → ranked fallback); this function
is absent from the sources under `src/`, which only contain the superseded
cost-sum selector `findBestLine`. -/
def selectLineForDemand (state : AppState) (referenceId : String) (remainingQuantity : ℚ)
    (lineSchedules : List LineSchedule) (eff : ℤ) (placedItems : List PlanItem)
    (preferred : Option String) : Option String :=
  let sticky : Option String :=
    ((placedItems.filter (fun p => decide (p.referenceId = referenceId) && !p.isSetup)).map
      (·.lineId)).head?
  let tier1 : Option String :=
    match sticky with
    | none => none
    | some el =>
      match lineSchedules.find? (fun s => decide (s.lineId = el)) with
      | none => none
      | some es =>
        if es.currentDate ≤ eff then
          match findThroughput state el referenceId with
          | none => none
          | some t =>
            if t.rate * remainingHoursThrough es el state eff ≥ remainingQuantity / 2 then
              some el
            else none
        else none
  match tier1 with
  | some l => some l
  | none =>
    let tier2 : Option String :=
      match preferred with
      | none => none
      | some pl =>
        match lineSchedules.find? (fun s => decide (s.lineId = pl)) with
        | none => none
        | some ps => if remainingHoursBefore ps pl state eff > 0 then some pl else none
    match tier2 with
    | some l => some l
    | none =>
      lineSchedules.foldl (fun best sched =>
        match findThroughput state sched.lineId referenceId with
        | none => best
        | some t =>
          let cap := remainingHoursBefore sched sched.lineId state eff
          if cap ≤ 0 then best
          else
            let setup : ℚ :=
              match sched.lastReferenceId with
              | some r =>
                if r ≠ referenceId then getSetupTime sched.lineId r referenceId state else 0
              | none => 0
            match best with
            | none => some (sched.lineId, t.rate, setup, cap)
            | some b =>
              if t.rate > b.2.1
                  ∨ (t.rate = b.2.1 ∧ setup < b.2.2.1)
                  ∨ (t.rate = b.2.1 ∧ setup = b.2.2.1 ∧ cap > b.2.2.2) then
                some (sched.lineId, t.rate, setup, cap)
              else best) none |>.map (·.1)

/-- The demand ordering asserted by the claim: a stable sort whose final
descending-quantity tiebreak applies within every group, in particular among
demands with equal deadlines. -/
def claimedDemandCmp (a b : Demand) : ℚ :=
  match a.deadline, b.deadline with
  | some da, some db => if da = db then b.quantity - a.quantity else (da : ℚ) - (db : ℚ)
  | some _, none => -1
  | none, some _ => 1
  | none, none => b.quantity - a.quantity

/-- Stable insertion by the claimed comparator. -/
def claimedInsert (a : Demand) : List Demand → List Demand
  | [] => [a]
  | b :: l => if claimedDemandCmp b a ≤ 0 then b :: claimedInsert a l else a :: b :: l

/-- The stable sort the claim describes (deadline presence, then ascending
deadline, then descending quantity as a tiebreak applying in every group). -/
def claimedSortDemands (demands : List Demand) : List Demand :=
  demands.foldl (fun acc a => claimedInsert a acc) []

/-- The run invariant tying the line schedules' bookkeeping to the emitted plan
items: daily usage equals the summed durations and stays within the configured
cap, cursors only see past items, blocks are back-to-back and chronological,
and `lastReferenceId` is the reference of the line's latest production item. -/
structure RunInv (state : AppState) (schedules : List LineSchedule)
    (items : List PlanItem) : Prop where
  ids : schedules.map (·.lineId) = state.lines.map (·.id)
  usedEq : ∀ s ∈ schedules, ∀ d, lookupUsed s.dailyHoursUsed d = sumDurOn items s.lineId d
  usedLe : ∀ s ∈ schedules, ∀ d, lookupUsed s.dailyHoursUsed d ≤ cfgHours state s.lineId d
  future : ∀ s ∈ schedules, ∀ d, s.currentDate < d → lookupUsed s.dailyHoursUsed d = 0
  curHour : ∀ s ∈ schedules, s.currentHour = lookupUsed s.dailyHoursUsed s.currentDate
  itemDate : ∀ s ∈ schedules, ∀ p ∈ items, p.lineId = s.lineId → p.date ≤ s.currentDate
  itemEnd : ∀ s ∈ schedules, ∀ p ∈ items, p.lineId = s.lineId →
      p.startHour + p.duration ≤ lookupUsed s.dailyHoursUsed p.date
  itemNonneg : ∀ p ∈ items, 0 ≤ p.startHour ∧ 0 ≤ p.duration
  lastRef : ∀ s ∈ schedules, s.lastReferenceId = lastProducedRef items s.lineId
  covered : ∀ p ∈ items, ∃ s ∈ schedules, s.lineId = p.lineId
  chrono : ∀ l, (itemsOfLine items l).Pairwise (fun a b => absEnd a ≤ absStart b)
  aligned : ∀ l, startsAligned (itemsOfLine items l)
  setupPrev : ∀ k p, items.get? k = some p → p.isSetup = true →
      ∃ r, lastProducedRef (items.take k) p.lineId = some r ∧ r ≠ p.referenceId

/-- State component of a loop-iteration outcome. -/
def iterSt : IterRes → SchedSt
  | .cont st _ => st
  | .stop st _ => st

/-- Remaining-quantity component of a loop-iteration outcome. -/
def iterRem : IterRes → ℚ
  | .cont _ rem => rem
  | .stop _ rem => rem

/-- Whether a loop-iteration outcome is a `break`. -/
def iterStops : IterRes → Bool
  | .cont _ _ => false
  | .stop _ _ => true

/-- Bundle of facts tracked through one loop iteration, used to push the run
invariant and the per-demand accounting through `demandLoop`. -/
def IterSpec (state : AppState) (d : Demand) (st : SchedSt) (rem : ℚ)
    (r : IterRes) : Prop :=
  RunInv state (iterSt r).schedules (iterSt r).planItems ∧
  0 ≤ iterRem r ∧ iterRem r ≤ rem ∧
  (iterStops r = true → iterRem r = rem) ∧
  (∃ newItems, (iterSt r).planItems = st.planItems ++ newItems ∧
    ∀ p ∈ newItems, p.referenceId = d.referenceId) ∧
  sumQtyFor (iterSt r).planItems d.referenceId + iterRem r
    = sumQtyFor st.planItems d.referenceId + rem ∧
  ((iterSt r).errors = st.errors ∨
    (∃ e, (iterSt r).errors = st.errors ++ [e] ∧ (iterSt r).warnings = st.warnings)) ∧
  ((iterSt r).warnings = st.warnings ∨ ∃ w, (iterSt r).warnings = st.warnings ++ [w]) ∧
  (iterStops r = false → (iterSt r).errors = st.errors ∧ (iterSt r).warnings = st.warnings)

/-- The ordering the engine's sort actually realises: demands with deadlines
first, ascending deadline among them (with no further tiebreak), and
descending quantity among the no-deadline demands only. -/
def demandLE (a b : Demand) : Prop :=
  match a.deadline, b.deadline with
  | some da, some db => da ≤ db
  | some _, none => True
  | none, some _ => False
  | none, none => b.quantity ≤ a.quantity

/-- The sort key under which the engine's comparator treats two demands as
equal: the deadline for deadline-bearing demands (quantity ignored), the
quantity for the rest. -/
def demandKey (a : Demand) : ℤ ⊕ ℚ :=
  match a.deadline with
  | some dl => Sum.inl dl
  | none => Sum.inr a.quantity

/-- Whether a diagnostic is the "Could not schedule setup time" warning. -/
def IsSetupFitWarn : Diag → Prop
  | .cannotFitSetup _ _ _ => True
  | _ => False

/-- One line, one reference, rate 10 t/h, 24 h availability every weekday, a
single 500 t demand without deadline. -/
def exSingle : AppState :=
  ⟨[⟨"L", "Line L"⟩], [⟨"R", "Ref R"⟩], [⟨"L", "R", 10⟩],
   (List.range 7).map (fun i => ⟨"L", i, 24⟩), [], [⟨"R", 500, none⟩]⟩

/-- One line at rate 10 t/h with 24 h availability every weekday and a 480 t
demand whose deadline is the week's second day: only the first day (240 t) can
be used for it, leaving the rest of the week idle. -/
def exShort : AppState :=
  ⟨[⟨"L", "Line L"⟩], [⟨"R", "Ref R"⟩], [⟨"L", "R", 10⟩],
   (List.range 7).map (fun i => ⟨"L", i, 24⟩), [], [⟨"R", 480, some 5⟩]⟩

/-- Two lines: `A` runs `S` at 1 t/h and `R` at 10 t/h, `B` runs `R` at
5 t/h; switching `A` from `S` to `R` costs 200 h.  Demands: 20 t of `S`, then
10 t of `R`. -/
def exSplit : AppState :=
  ⟨[⟨"A", "Line A"⟩, ⟨"B", "Line B"⟩], [⟨"S", "Ref S"⟩, ⟨"R", "Ref R"⟩],
   [⟨"A", "S", 1⟩, ⟨"A", "R", 10⟩, ⟨"B", "R", 5⟩],
   (List.range 7).map (fun i => ⟨"A", i, 24⟩) ++ (List.range 7).map (fun i => ⟨"B", i, 24⟩),
   [⟨"A", "S", "R", 200⟩],
   [⟨"S", 20, none⟩, ⟨"R", 10, none⟩]⟩

/-- One line available 10 h on Mondays only; 10 t of `S` fill the Monday, and
the 100 h setup towards `R` can then never be placed, so the 5 t demand of
`R` is dropped with only a setup warning. -/
def exSetupFail : AppState :=
  ⟨[⟨"L", "Line L"⟩], [⟨"S", "Ref S"⟩, ⟨"R", "Ref R"⟩],
   [⟨"L", "S", 1⟩, ⟨"L", "R", 1⟩], [⟨"L", 0, 10⟩],
   [⟨"L", "S", "R", 100⟩],
   [⟨"S", 10, none⟩, ⟨"R", 5, none⟩]⟩

/-- One line available 16 h on Mondays only; 10 t of `S`, then a 2 h setup
towards `R` and 4 h of `R` production fit in the remaining hours. -/
def exSetupFit : AppState :=
  ⟨[⟨"L", "Line L"⟩], [⟨"S", "Ref S"⟩, ⟨"R", "Ref R"⟩],
   [⟨"L", "S", 1⟩, ⟨"L", "R", 1⟩], [⟨"L", 0, 16⟩],
   [⟨"L", "S", "R", 2⟩],
   [⟨"S", 10, none⟩, ⟨"R", 5, none⟩]⟩

/-- The run state of `exSetupFit` after its `S` demand: 10 h used on the
Monday, the line's last reference `S`. -/
def exFitSt : SchedSt :=
  ⟨[⟨"L", 4, 10, some "S", [(4, 10)]⟩], [⟨4, "L", "S", 10, 10, 0, false⟩], [], []⟩

/-- 1 when the line still has spare hours at its cursor date, else 0. -/
def spareDay (state : AppState) (s : LineSchedule) : ℕ :=
  if 0 < getAvailableHours s s.lineId state then 1 else 0

/-- Termination measure of one line inside the per-demand loop: twice the
days left until the effective deadline, plus the spare-hours indicator.
Every continuing loop iteration strictly decreases the summed measure. -/
def lineMeasure (state : AppState) (eff : ℤ) (s : LineSchedule) : ℕ :=
  2 * (eff - s.currentDate).toNat + spareDay state s

/-- Summed termination measure of a run state's line schedules. -/
def stMeasure (state : AppState) (eff : ℤ) (st : SchedSt) : ℕ :=
  (st.schedules.map (lineMeasure state eff)).sum

theorem lookupUsed_nil (d' : ℤ) : lookupUsed [] d' = 0 := by
  simp [lookupUsed, List.find?]

theorem lookupUsed_cons (k : ℤ) (x : ℚ) (rest : List (ℤ × ℚ)) (d' : ℤ) :
    lookupUsed ((k, x) :: rest) d' = if k = d' then x else lookupUsed rest d' := by
  simp only [lookupUsed, List.find?]
  by_cases h : k = d' <;> simp [h]

theorem lookupUsed_setUsed (m : List (ℤ × ℚ)) (d : ℤ) (v : ℚ) (d' : ℤ) :
    lookupUsed (setUsed m d v) d' = if d' = d then v else lookupUsed m d' := by
  induction m with
  | nil =>
    show lookupUsed [(d, v)] d' = _
    rw [lookupUsed_cons, lookupUsed_nil]
    by_cases h : d = d'
    · subst h; simp
    · rw [if_neg h, if_neg (fun hh => h hh.symm)]
  | cons kv rest ih =>
    obtain ⟨k, x⟩ := kv
    by_cases hk : k = d
    · subst hk
      have hset : setUsed ((k, x) :: rest) k v = (k, v) :: rest := by simp [setUsed]
      rw [hset, lookupUsed_cons, lookupUsed_cons]
      by_cases h : k = d'
      · subst h; simp
      · rw [if_neg h, if_neg (fun hh => h hh.symm), if_neg h]
    · have hset : setUsed ((k, x) :: rest) d v = (k, x) :: setUsed rest d v := by
        simp [setUsed, hk]
      rw [hset, lookupUsed_cons, lookupUsed_cons, ih]
      by_cases h : k = d'
      · subst h
        rw [if_pos rfl, if_neg hk, if_pos rfl]
      · rw [if_neg h, if_neg h]

theorem itemsOfLine_append (xs ys : List PlanItem) (l : String) :
    itemsOfLine (xs ++ ys) l = itemsOfLine xs l ++ itemsOfLine ys l := by
  simp [itemsOfLine, List.filter_append]

theorem itemsOfLine_single (p : PlanItem) (l : String) :
    itemsOfLine [p] l = if p.lineId = l then [p] else [] := by
  by_cases h : p.lineId = l <;> simp [itemsOfLine, h]

theorem sumDurOn_append (xs ys : List PlanItem) (l : String) (d : ℤ) :
    sumDurOn (xs ++ ys) l d = sumDurOn xs l d + sumDurOn ys l d := by
  simp [sumDurOn, itemsOfLine, List.filter_append]

theorem sumDurOn_single (p : PlanItem) (l : String) (d : ℤ) :
    sumDurOn [p] l d = if p.lineId = l ∧ p.date = d then p.duration else 0 := by
  by_cases h1 : p.lineId = l
  · by_cases h2 : p.date = d <;> simp [sumDurOn, itemsOfLine, h1, h2]
  · simp [sumDurOn, itemsOfLine, h1]

theorem sumDurOn_nonneg (items : List PlanItem) (l : String) (d : ℤ)
    (h : ∀ p ∈ items, 0 ≤ p.duration) : 0 ≤ sumDurOn items l d := by
  unfold sumDurOn
  apply List.sum_nonneg
  intro x hx
  simp only [List.mem_map] at hx
  obtain ⟨p, hp, rfl⟩ := hx
  exact h p (List.mem_of_mem_filter (List.mem_of_mem_filter hp))

theorem sumDurOn_eq_zero (items : List PlanItem) (l : String) (d : ℤ)
    (h : ∀ p ∈ items, p.lineId ≠ l) : sumDurOn items l d = 0 := by
  have : itemsOfLine items l = [] := by
    apply List.filter_eq_nil.mpr
    intro p hp
    simp [h p hp]
  simp [sumDurOn, this]

theorem sumQtyFor_append (xs ys : List PlanItem) (r : String) :
    sumQtyFor (xs ++ ys) r = sumQtyFor xs r + sumQtyFor ys r := by
  simp [sumQtyFor, List.filter_append]

theorem sumQtyFor_single (p : PlanItem) (r : String) :
    sumQtyFor [p] r = if p.referenceId = r ∧ p.isSetup = false then p.quantity else 0 := by
  by_cases h1 : p.referenceId = r
  · by_cases h2 : p.isSetup <;> simp [sumQtyFor, h1, h2]
  · simp [sumQtyFor, h1]

theorem updateSched_map_lineId (L : List LineSchedule) (s' : LineSchedule) :
    (updateSched L s').map (·.lineId) = L.map (·.lineId) := by
  induction L with
  | nil => rfl
  | cons s rest ih =>
    by_cases h : s.lineId = s'.lineId <;> simp [updateSched, h] at ih ⊢ <;> exact ih

theorem mem_updateSched {L : List LineSchedule} {s' t : LineSchedule}
    (h : t ∈ updateSched L s') : t = s' ∨ (t ∈ L ∧ t.lineId ≠ s'.lineId) := by
  unfold updateSched at h
  rw [List.mem_map] at h
  obtain ⟨s, hs, heq⟩ := h
  by_cases hc : s.lineId = s'.lineId
  · left; rw [if_pos hc] at heq; exact heq.symm
  · right; rw [if_neg hc] at heq; exact ⟨heq ▸ hs, heq ▸ hc⟩

theorem self_mem_updateSched {L : List LineSchedule} {s' : LineSchedule}
    (h : ∃ s ∈ L, s.lineId = s'.lineId) : s' ∈ updateSched L s' := by
  obtain ⟨s, hs, heq⟩ := h
  unfold updateSched
  rw [List.mem_map]
  exact ⟨s, hs, by rw [if_pos heq]⟩

theorem cfgHours_nonneg (state : AppState) (l : String) (d : ℤ)
    (hv : ∀ a ∈ state.availabilities, 0 ≤ a.hoursAvailable ∧ a.hoursAvailable ≤ 24) :
    0 ≤ cfgHours state l d := by
  unfold cfgHours
  cases h : findAvail state l (euDow d) with
  | none => simp
  | some a => exact (hv a (List.mem_of_find?_eq_some h)).1

theorem cfgHours_le_24 (state : AppState) (l : String) (d : ℤ)
    (hv : ∀ a ∈ state.availabilities, 0 ≤ a.hoursAvailable ∧ a.hoursAvailable ≤ 24) :
    cfgHours state l d ≤ 24 := by
  unfold cfgHours
  cases h : findAvail state l (euDow d) with
  | none => norm_num
  | some a => exact (hv a (List.mem_of_find?_eq_some h)).2

theorem getLast?_filterMap_concat (items : List PlanItem) (p : PlanItem) (l : String)
    (hl : p.lineId = l) (hs : p.isSetup = false) :
    lastProducedRef (items ++ [p]) l = some p.referenceId := by
  unfold lastProducedRef
  rw [itemsOfLine_append, itemsOfLine_single, if_pos hl]
  simp [List.filter_append, hs, List.getLast?_concat]

theorem lastProducedRef_append_setup (items : List PlanItem) (p : PlanItem) (l : String)
    (h : p.isSetup = true ∨ p.lineId ≠ l) :
    lastProducedRef (items ++ [p]) l = lastProducedRef items l := by
  unfold lastProducedRef
  rw [itemsOfLine_append, itemsOfLine_single]
  rcases h with h | h
  · by_cases hl : p.lineId = l <;> simp [hl, List.filter_append, h]
  · simp [h]

theorem split_append_singleton {pre post old : List PlanItem} {p q : PlanItem}
    (h : pre ++ p :: post = old ++ [q]) :
    (pre = old ∧ p = q ∧ post = []) ∨
      ∃ post', post = post' ++ [q] ∧ old = pre ++ p :: post' := by
  rcases List.eq_nil_or_concat post with hpost | ⟨post', q', rfl⟩
  · subst hpost
    have h2 : pre ++ [p] = old ++ [q] := by simpa using h
    have hlen : pre.length = old.length := by
      have := congrArg List.length h2
      simp at this
      omega
    obtain ⟨h3, h4⟩ := List.append_inj h2 hlen
    exact Or.inl ⟨h3, by simpa using h4, rfl⟩
  · right
    have h2 : (pre ++ p :: post') ++ [q'] = old ++ [q] := by
      simpa using h
    have hlen : (pre ++ p :: post').length = old.length := by
      have := congrArg List.length h2
      simp at this
      simp
      omega
    obtain ⟨h3, h4⟩ := List.append_inj h2 hlen
    have hq : q' = q := by simpa using h4
    exact ⟨post', by rw [hq]; simp, h3.symm⟩

/-- Full behavioural specification of the day-advancing placement routine:
the cursor only moves forward, the daily bookkeeping is untouched on failure,
and on success the emitted item starts at the hours already consumed on its
date, consumes exactly its duration there, and respects the configured daily
cap. -/
theorem scheduleTaskGo_spec (state : AppState) (endDate : ℤ) (lineId referenceId : String)
    (quantity duration : ℚ) (isSetup : Bool) :
    ∀ (fuel : ℕ) (s : LineSchedule) (res : Option PlanItem) (s' : LineSchedule),
    scheduleTaskGo state endDate lineId referenceId quantity duration isSetup fuel s = (res, s') →
    0 ≤ duration →
    (∀ d, s.currentDate < d → lookupUsed s.dailyHoursUsed d = 0) →
    s.currentHour = lookupUsed s.dailyHoursUsed s.currentDate →
    (s'.lineId = s.lineId ∧ s'.lastReferenceId = s.lastReferenceId ∧
     s.currentDate ≤ s'.currentDate ∧
     (∀ d, s'.currentDate < d → lookupUsed s'.dailyHoursUsed d = 0) ∧
     s'.currentHour = lookupUsed s'.dailyHoursUsed s'.currentDate ∧
     ((res = none ∧ s'.dailyHoursUsed = s.dailyHoursUsed) ∨
      (∃ p, res = some p ∧
        p.lineId = lineId ∧ p.referenceId = referenceId ∧ p.quantity = quantity ∧
        p.duration = duration ∧ p.isSetup = isSetup ∧
        p.date = s'.currentDate ∧ p.date < endDate ∧
        p.startHour = lookupUsed s.dailyHoursUsed p.date ∧
        s'.currentHour = p.startHour + duration ∧
        (∀ d, d ≠ p.date → lookupUsed s'.dailyHoursUsed d = lookupUsed s.dailyHoursUsed d) ∧
        lookupUsed s'.dailyHoursUsed p.date = lookupUsed s.dailyHoursUsed p.date + duration ∧
        lookupUsed s'.dailyHoursUsed p.date
          ≤ max (lookupUsed s.dailyHoursUsed p.date) (cfgHours state lineId p.date)))) := by
  intro fuel
  induction fuel with
  | zero =>
    intro s res s' heq hdur hfut hcur
    simp only [scheduleTaskGo, Prod.mk.injEq] at heq
    obtain ⟨h1, h2⟩ := heq
    subst h2
    exact ⟨rfl, rfl, le_refl _, hfut, hcur, Or.inl ⟨h1.symm, rfl⟩⟩
  | succ fuel ih =>
    intro s res s' heq hdur hfut hcur
    simp only [scheduleTaskGo] at heq
    by_cases h1 : s.currentDate ≥ endDate
    · rw [if_pos h1] at heq
      simp only [Prod.mk.injEq] at heq
      obtain ⟨h2, h3⟩ := heq
      subst h3
      exact ⟨rfl, rfl, le_refl _, hfut, hcur, Or.inl ⟨h2.symm, rfl⟩⟩
    · rw [if_neg h1] at heq
      by_cases h2 : duration > getAvailableHours s lineId state
      · rw [if_pos h2] at heq
        by_cases h3 : (advanceDay s).currentDate ≥ endDate
        · rw [if_pos h3] at heq
          simp only [Prod.mk.injEq] at heq
          obtain ⟨h4, h5⟩ := heq
          subst h5
          refine ⟨rfl, rfl, by simp [advanceDay], ?_, ?_, Or.inl ⟨h4.symm, rfl⟩⟩
          · intro d hd
            simp only [advanceDay] at hd ⊢
            exact hfut d (by omega)
          · simp only [advanceDay]
            exact (hfut (s.currentDate + 1) (by omega)).symm
        · rw [if_neg h3] at heq
          have hfut' : ∀ d, (advanceDay s).currentDate < d →
              lookupUsed (advanceDay s).dailyHoursUsed d = 0 := by
            intro d hd
            simp only [advanceDay] at hd ⊢
            exact hfut d (by omega)
          have hcur' : (advanceDay s).currentHour
              = lookupUsed (advanceDay s).dailyHoursUsed (advanceDay s).currentDate := by
            simp only [advanceDay]
            exact (hfut (s.currentDate + 1) (by omega)).symm
          obtain ⟨c1, c2, c3, c4, c5, c6⟩ := ih (advanceDay s) res s' heq hdur hfut' hcur'
          refine ⟨c1, c2, ?_, c4, c5, ?_⟩
          · calc s.currentDate ≤ (advanceDay s).currentDate := by simp [advanceDay]
              _ ≤ s'.currentDate := c3
          · rcases c6 with ⟨hr, hd⟩ | ⟨p, hp⟩
            · exact Or.inl ⟨hr, hd⟩
            · exact Or.inr ⟨p, hp⟩
      · rw [if_neg h2] at heq
        simp only [Prod.mk.injEq] at heq
        obtain ⟨h4, h5⟩ := heq
        subst h5
        push_neg at h1 h2
        refine ⟨rfl, rfl, le_refl _, ?_, ?_,
          Or.inr ⟨_, h4.symm, rfl, rfl, rfl, rfl, rfl, rfl, h1, ?_, ?_, ?_, ?_, ?_⟩⟩
        · show ∀ d, s.currentDate < d →
            lookupUsed (setUsed s.dailyHoursUsed s.currentDate
              (lookupUsed s.dailyHoursUsed s.currentDate + duration)) d = 0
          intro d hd
          rw [lookupUsed_setUsed, if_neg (by omega)]
          exact hfut d hd
        · show s.currentHour + duration
            = lookupUsed (setUsed s.dailyHoursUsed s.currentDate
              (lookupUsed s.dailyHoursUsed s.currentDate + duration)) s.currentDate
          rw [lookupUsed_setUsed, if_pos rfl, hcur]
        · exact hcur
        · show s.currentHour + duration = s.currentHour + duration
          rfl
        · show ∀ d, d ≠ s.currentDate →
            lookupUsed (setUsed s.dailyHoursUsed s.currentDate
              (lookupUsed s.dailyHoursUsed s.currentDate + duration)) d
              = lookupUsed s.dailyHoursUsed d
          intro d hd
          rw [lookupUsed_setUsed, if_neg hd]
        · show lookupUsed (setUsed s.dailyHoursUsed s.currentDate
              (lookupUsed s.dailyHoursUsed s.currentDate + duration)) s.currentDate
            = lookupUsed s.dailyHoursUsed s.currentDate + duration
          rw [lookupUsed_setUsed, if_pos rfl]
        · show lookupUsed (setUsed s.dailyHoursUsed s.currentDate
              (lookupUsed s.dailyHoursUsed s.currentDate + duration)) s.currentDate
            ≤ max (lookupUsed s.dailyHoursUsed s.currentDate) (cfgHours state lineId s.currentDate)
          rw [lookupUsed_setUsed, if_pos rfl]
          unfold getAvailableHours at h2
          unfold cfgHours
          cases hfa : findAvail state lineId (euDow s.currentDate) with
          | none =>
            rw [hfa] at h2
            change duration ≤ (0 : ℚ) at h2
            have hz : duration = 0 := le_antisymm h2 hdur
            simp [hz]
          | some a =>
            rw [hfa] at h2
            change duration
              ≤ max 0 (a.hoursAvailable - lookupUsed s.dailyHoursUsed s.currentDate) at h2
            by_cases hle : 0 ≤ a.hoursAvailable - lookupUsed s.dailyHoursUsed s.currentDate
            · rw [max_eq_right hle] at h2
              have hub : lookupUsed s.dailyHoursUsed s.currentDate + duration
                  ≤ a.hoursAvailable := by linarith
              exact le_trans hub (le_max_right _ _)
            · push_neg at hle
              rw [max_eq_left (by linarith)] at h2
              have hz : duration = 0 := le_antisymm h2 hdur
              rw [hz, add_zero]
              exact le_max_left _ _

/-- Wrapper specification: `scheduleTask` is `scheduleTaskGo` with enough fuel. -/
theorem scheduleTask_spec (state : AppState) (endDate : ℤ) (lineId referenceId : String)
    (quantity duration : ℚ) (isSetup : Bool) (s : LineSchedule) (res : Option PlanItem)
    (s' : LineSchedule)
    (heq : scheduleTask state endDate lineId referenceId quantity duration isSetup s = (res, s'))
    (hdur : 0 ≤ duration)
    (hfut : ∀ d, s.currentDate < d → lookupUsed s.dailyHoursUsed d = 0)
    (hcur : s.currentHour = lookupUsed s.dailyHoursUsed s.currentDate) :
    s'.lineId = s.lineId ∧ s'.lastReferenceId = s.lastReferenceId ∧
    s.currentDate ≤ s'.currentDate ∧
    (∀ d, s'.currentDate < d → lookupUsed s'.dailyHoursUsed d = 0) ∧
    s'.currentHour = lookupUsed s'.dailyHoursUsed s'.currentDate ∧
    ((res = none ∧ s'.dailyHoursUsed = s.dailyHoursUsed) ∨
     (∃ p, res = some p ∧
       p.lineId = lineId ∧ p.referenceId = referenceId ∧ p.quantity = quantity ∧
       p.duration = duration ∧ p.isSetup = isSetup ∧
       p.date = s'.currentDate ∧ p.date < endDate ∧
       p.startHour = lookupUsed s.dailyHoursUsed p.date ∧
       s'.currentHour = p.startHour + duration ∧
       (∀ d, d ≠ p.date → lookupUsed s'.dailyHoursUsed d = lookupUsed s.dailyHoursUsed d) ∧
       lookupUsed s'.dailyHoursUsed p.date = lookupUsed s.dailyHoursUsed p.date + duration ∧
       lookupUsed s'.dailyHoursUsed p.date
         ≤ max (lookupUsed s.dailyHoursUsed p.date) (cfgHours state lineId p.date))) :=
  scheduleTaskGo_spec state endDate lineId referenceId quantity duration isSetup
    _ s res s' heq hdur hfut hcur

theorem mem_updateSched_of_ne {L : List LineSchedule} {s' s : LineSchedule}
    (hs : s ∈ L) (hne : s.lineId ≠ s'.lineId) : s ∈ updateSched L s' := by
  unfold updateSched
  rw [List.mem_map]
  exact ⟨s, hs, by rw [if_neg hne]⟩

/-- Invariant preservation when a schedule is written back with unchanged
bookkeeping (a failed or day-advancing `scheduleTask`, or a plain day
advance): the cursor may only have moved forward. -/
theorem inv_step_failed (state : AppState) {schedules : List LineSchedule}
    {items : List PlanItem} (hinv : RunInv state schedules items)
    {sched s2 : LineSchedule} (hmem : sched ∈ schedules)
    (hlid : s2.lineId = sched.lineId)
    (hlast : s2.lastReferenceId = sched.lastReferenceId)
    (hdaily : s2.dailyHoursUsed = sched.dailyHoursUsed)
    (hge : sched.currentDate ≤ s2.currentDate)
    (hfut : ∀ d, s2.currentDate < d → lookupUsed s2.dailyHoursUsed d = 0)
    (hcur : s2.currentHour = lookupUsed s2.dailyHoursUsed s2.currentDate) :
    RunInv state (updateSched schedules s2) items := by
  refine ⟨?_, ?_, ?_, ?_, ?_, ?_, ?_, hinv.itemNonneg, ?_, ?_, hinv.chrono, hinv.aligned,
    hinv.setupPrev⟩
  · rw [updateSched_map_lineId]; exact hinv.ids
  · intro t ht d
    rcases mem_updateSched ht with rfl | ⟨ht, _⟩
    · rw [hdaily, hlid]; exact hinv.usedEq sched hmem d
    · exact hinv.usedEq t ht d
  · intro t ht d
    rcases mem_updateSched ht with rfl | ⟨ht, _⟩
    · rw [hdaily, hlid]; exact hinv.usedLe sched hmem d
    · exact hinv.usedLe t ht d
  · intro t ht d hd
    rcases mem_updateSched ht with rfl | ⟨ht, _⟩
    · exact hfut d hd
    · exact hinv.future t ht d hd
  · intro t ht
    rcases mem_updateSched ht with rfl | ⟨ht, _⟩
    · exact hcur
    · exact hinv.curHour t ht
  · intro t ht p hp hl
    rcases mem_updateSched ht with rfl | ⟨ht, _⟩
    · exact le_trans (hinv.itemDate sched hmem p hp (hlid ▸ hl)) hge
    · exact hinv.itemDate t ht p hp hl
  · intro t ht p hp hl
    rcases mem_updateSched ht with rfl | ⟨ht, _⟩
    · rw [hdaily]; exact hinv.itemEnd sched hmem p hp (hlid ▸ hl)
    · exact hinv.itemEnd t ht p hp hl
  · intro t ht
    rcases mem_updateSched ht with rfl | ⟨ht, _⟩
    · rw [hlast, hlid]; exact hinv.lastRef sched hmem
    · exact hinv.lastRef t ht
  · intro p hp
    obtain ⟨s, hs, hsl⟩ := hinv.covered p hp
    by_cases hc : s.lineId = s2.lineId
    · exact ⟨s2, self_mem_updateSched ⟨s, hs, hc⟩, hc ▸ hsl⟩
    · exact ⟨s, mem_updateSched_of_ne hs hc, hsl⟩

/-- Invariant preservation for a plain day advance of one line. -/
theorem inv_step_advance (state : AppState) {schedules : List LineSchedule}
    {items : List PlanItem} (hinv : RunInv state schedules items)
    {sched : LineSchedule} (hmem : sched ∈ schedules) :
    RunInv state (updateSched schedules (advanceDay sched)) items := by
  refine inv_step_failed state hinv hmem rfl rfl rfl (by simp [advanceDay]) ?_ ?_
  · intro d hd
    simp only [advanceDay] at hd ⊢
    exact hinv.future sched hmem d (by omega)
  · simp only [advanceDay]
    exact (hinv.future sched hmem (sched.currentDate + 1) (by omega)).symm

theorem mem_itemsOfLine {x : PlanItem} {items : List PlanItem} {l : String} :
    x ∈ itemsOfLine items l ↔ x ∈ items ∧ x.lineId = l := by
  simp [itemsOfLine]

/-- Invariant preservation when a block is successfully placed on a line: the
item is appended, the line's bookkeeping absorbs its duration, and (for a
production block) `lastReferenceId` is overwritten with the demand's
reference. -/
theorem inv_step_place (state : AppState) {schedules : List LineSchedule}
    {items : List PlanItem} (hinv : RunInv state schedules items)
    (hv24 : ∀ a ∈ state.availabilities, 0 ≤ a.hoursAvailable ∧ a.hoursAvailable ≤ 24)
    {sched s2 : LineSchedule} {p : PlanItem} {eff : ℤ} {r : String} {q dur : ℚ}
    {isSetup : Bool} {nl : Option String}
    (hmem : sched ∈ schedules)
    (heq : scheduleTask state eff sched.lineId r q dur isSetup sched = (some p, s2))
    (hdur : 0 ≤ dur)
    (hnl : (isSetup = true ∧ nl = s2.lastReferenceId) ∨ (isSetup = false ∧ nl = some r))
    (hprev : isSetup = true → ∃ rr, sched.lastReferenceId = some rr ∧ rr ≠ r) :
    RunInv state
      (updateSched schedules ⟨s2.lineId, s2.currentDate, s2.currentHour, nl, s2.dailyHoursUsed⟩)
      (items ++ [p]) := by
  obtain ⟨e1, e2, e3, e4, e5, e6⟩ :=
    scheduleTask_spec state eff sched.lineId r q dur isSetup sched (some p) s2 heq hdur
      (hinv.future sched hmem) (hinv.curHour sched hmem)
  rcases e6 with ⟨hbad, _⟩ | ⟨p', hp', c1, c2, c3, c4, c5, c6, c7, c8, c9, c10, c11, c12⟩
  · exact absurd hbad (by simp)
  · have hpp : p = p' := Option.some.inj hp'
    subst hpp
    set s3 : LineSchedule :=
      ⟨s2.lineId, s2.currentDate, s2.currentHour, nl, s2.dailyHoursUsed⟩ with hs3
    have hs3lid : s3.lineId = sched.lineId := e1
    have hplid : p.lineId = sched.lineId := c1
    have hstart_sum : p.startHour = sumDurOn items sched.lineId p.date := by
      rw [c8, hinv.usedEq sched hmem]
    have hstart_nonneg : 0 ≤ p.startHour := by
      rw [hstart_sum]
      exact sumDurOn_nonneg items _ _ (fun x hx => (hinv.itemNonneg x hx).2)
    refine ⟨?_, ?_, ?_, ?_, ?_, ?_, ?_, ?_, ?_, ?_, ?_, ?_, ?_⟩
    · rw [updateSched_map_lineId]; exact hinv.ids
    · -- usedEq
      intro t ht dd
      rcases mem_updateSched ht with rfl | ⟨ht, hne⟩
      · show lookupUsed s2.dailyHoursUsed dd = sumDurOn (items ++ [p]) s3.lineId dd
        rw [sumDurOn_append, sumDurOn_single, hs3lid]
        by_cases hdd : dd = p.date
        · subst hdd
          rw [c11, hinv.usedEq sched hmem, if_pos ⟨hplid, rfl⟩, c4]
        · rw [c10 dd hdd, hinv.usedEq sched hmem,
            if_neg (fun hc => hdd hc.2.symm), add_zero]
      · rw [sumDurOn_append, sumDurOn_single,
          if_neg (fun hc => hne (by rw [← hc.1, hplid, ← hs3lid])), add_zero]
        exact hinv.usedEq t ht dd
    · -- usedLe
      intro t ht dd
      rcases mem_updateSched ht with rfl | ⟨ht, hne⟩
      · show lookupUsed s2.dailyHoursUsed dd ≤ cfgHours state s3.lineId dd
        rw [hs3lid]
        by_cases hdd : dd = p.date
        · subst hdd
          exact le_trans c12 (max_le (hinv.usedLe sched hmem p.date) (le_refl _))
        · rw [c10 dd hdd]
          exact hinv.usedLe sched hmem dd
      · exact hinv.usedLe t ht dd
    · -- future
      intro t ht dd hdd
      rcases mem_updateSched ht with rfl | ⟨ht, hne⟩
      · exact e4 dd hdd
      · exact hinv.future t ht dd hdd
    · -- curHour
      intro t ht
      rcases mem_updateSched ht with rfl | ⟨ht, hne⟩
      · exact e5
      · exact hinv.curHour t ht
    · -- itemDate
      intro t ht x hx hxl
      rcases mem_updateSched ht with rfl | ⟨ht, hne⟩
      · rcases List.mem_append.mp hx with hx | hx
        · exact le_trans (hinv.itemDate sched hmem x hx (hs3lid ▸ hxl)) e3
        · have : x = p := by simpa using hx
          subst this
          rw [c6]
      · rcases List.mem_append.mp hx with hx | hx
        · exact hinv.itemDate t ht x hx hxl
        · have : x = p := by simpa using hx
          subst this
          exact absurd (hxl ▸ hplid ▸ hs3lid.symm ▸ rfl : s3.lineId = t.lineId)
            (fun hc => hne hc.symm)
    · -- itemEnd
      intro t ht x hx hxl
      rcases mem_updateSched ht with rfl | ⟨ht, hne⟩
      · show x.startHour + x.duration ≤ lookupUsed s2.dailyHoursUsed x.date
        rcases List.mem_append.mp hx with hx | hx
        · have hold := hinv.itemEnd sched hmem x hx (hs3lid ▸ hxl)
          by_cases hdd : x.date = p.date
          · rw [hdd] at hold ⊢
            rw [c11]
            linarith
          · rw [c10 x.date hdd]
            exact hold
        · have : x = p := by simpa using hx
          subst this
          rw [c11, ← c8, c4]
      · rcases List.mem_append.mp hx with hx | hx
        · exact hinv.itemEnd t ht x hx hxl
        · have : x = p := by simpa using hx
          subst this
          exact absurd (hxl ▸ hplid ▸ hs3lid.symm ▸ rfl : s3.lineId = t.lineId)
            (fun hc => hne hc.symm)
    · -- itemNonneg
      intro x hx
      rcases List.mem_append.mp hx with hx | hx
      · exact hinv.itemNonneg x hx
      · have : x = p := by simpa using hx
        subst this
        exact ⟨hstart_nonneg, c4 ▸ hdur⟩
    · -- lastRef
      intro t ht
      rcases mem_updateSched ht with rfl | ⟨ht, hne⟩
      · show nl = lastProducedRef (items ++ [p]) s3.lineId
        rcases hnl with ⟨hset, hnl⟩ | ⟨hset, hnl⟩
        · rw [hnl, e2, lastProducedRef_append_setup items p s3.lineId (Or.inl (c5.trans hset)),
            hs3lid]
          exact hinv.lastRef sched hmem
        · rw [hnl, getLast?_filterMap_concat items p s3.lineId (hplid.trans hs3lid.symm)
            (c5.trans hset), c2]
      · rw [lastProducedRef_append_setup items p t.lineId
          (Or.inr (fun hc => hne ((hc ▸ hplid ▸ hs3lid.symm ▸ rfl : s3.lineId = t.lineId).symm)))]
        exact hinv.lastRef t ht
    · -- covered
      intro x hx
      rcases List.mem_append.mp hx with hx | hx
      · obtain ⟨s, hs, hsl⟩ := hinv.covered x hx
        by_cases hc : s.lineId = s3.lineId
        · exact ⟨s3, self_mem_updateSched ⟨s, hs, hc⟩, hc ▸ hsl⟩
        · exact ⟨s, mem_updateSched_of_ne hs hc, hsl⟩
      · have : x = p := by simpa using hx
        subst this
        exact ⟨s3, self_mem_updateSched ⟨sched, hmem, hs3lid.symm⟩,
          hs3lid.trans hplid.symm⟩
    · -- chrono
      intro l
      by_cases hl : p.lineId = l
      · subst hl
        rw [itemsOfLine_append, itemsOfLine_single, if_pos rfl]
        rw [List.pairwise_append]
        refine ⟨hinv.chrono p.lineId, List.pairwise_singleton _ _, ?_⟩
        intro x hx y hy
        have hy' : p = y := (by simpa using hy : y = p).symm
        subst hy'
        obtain ⟨hxmem, hxl⟩ := mem_itemsOfLine.mp hx
        have hend := hinv.itemEnd sched hmem x hxmem (hxl.trans hplid)
        have hdate := hinv.itemDate sched hmem x hxmem (hxl.trans hplid)
        have hdle : x.date ≤ p.date := le_trans hdate (c6 ▸ e3)
        unfold absEnd absStart
        by_cases hdd : x.date = p.date
        · rw [hdd] at hend ⊢
          rw [← c8] at hend
          linarith
        · have hlt : x.date + 1 ≤ p.date := by omega
          have hcast : (x.date : ℚ) + 1 ≤ (p.date : ℚ) := by exact_mod_cast hlt
          have hcap : lookupUsed sched.dailyHoursUsed x.date
              ≤ cfgHours state sched.lineId x.date := hinv.usedLe sched hmem x.date
          have h24 : cfgHours state sched.lineId x.date ≤ 24 :=
            cfgHours_le_24 state sched.lineId x.date hv24
          linarith
      · rw [itemsOfLine_append, itemsOfLine_single, if_neg hl, List.append_nil]
        exact hinv.chrono l
    · -- aligned
      intro l
      by_cases hl : p.lineId = l
      · subst hl
        rw [itemsOfLine_append, itemsOfLine_single, if_pos rfl]
        intro pre z post hsplit
        rcases split_append_singleton hsplit.symm with ⟨hpre, hz, hpost⟩ | ⟨post', hpost, hold⟩
        · subst hpre
          have hz' : p = z := hz.symm
          subst hz'
          show p.startHour = _
          rw [hstart_sum, ← hplid]
          rfl
        · exact hinv.aligned p.lineId pre z post' hold
      · rw [itemsOfLine_append, itemsOfLine_single, if_neg hl, List.append_nil]
        exact hinv.aligned l
    · -- setupPrev
      intro k x hk hxsetup
      rcases lt_trichotomy k items.length with hlt | hkeq | hgt
      · rw [List.get?_append hlt] at hk
        have htake : (items ++ [p]).take k = items.take k := by
          rw [List.take_append_eq_append_take]
          have hz : k - items.length = 0 := by omega
          rw [hz, List.take_zero, List.append_nil]
        rw [htake]
        exact hinv.setupPrev k x hk hxsetup
      · subst hkeq
        rw [List.get?_concat_length] at hk
        have hxp : p = x := Option.some.inj hk
        subst hxp
        have htake : (items ++ [p]).take items.length = items := by
          rw [List.take_append_eq_append_take, List.take_length, Nat.sub_self]
          simp
        rw [htake]
        have hset : isSetup = true := c5 ▸ hxsetup
        obtain ⟨rr, hrr, hne⟩ := hprev hset
        refine ⟨rr, ?_, ?_⟩
        · rw [hplid, ← hinv.lastRef sched hmem, hrr]
        · rw [c2]; exact hne
      · have : (items ++ [p]).get? k = none := by
          rw [List.get?_eq_none]
          simp
          omega
        rw [this] at hk
        cases hk

theorem find?_sched_facts {L : List LineSchedule} {b : String} {sched0 : LineSchedule}
    (h : L.find? (fun s => decide (s.lineId = b)) = some sched0) :
    sched0 ∈ L ∧ sched0.lineId = b := by
  refine ⟨List.mem_of_find?_eq_some h, ?_⟩
  have := List.find?_some h
  simpa using this

@[simp] theorem iterSt_stop (st : SchedSt) (rem : ℚ) : iterSt (.stop st rem) = st := rfl

@[simp] theorem iterSt_cont (st : SchedSt) (rem : ℚ) : iterSt (.cont st rem) = st := rfl

@[simp] theorem iterRem_stop (st : SchedSt) (rem : ℚ) : iterRem (.stop st rem) = rem := rfl

@[simp] theorem iterRem_cont (st : SchedSt) (rem : ℚ) : iterRem (.cont st rem) = rem := rfl

@[simp] theorem iterStops_stop (st : SchedSt) (rem : ℚ) :
    iterStops (.stop st rem) = true := rfl

@[simp] theorem iterStops_cont (st : SchedSt) (rem : ℚ) :
    iterStops (.cont st rem) = false := rfl

@[simp] theorem addWarn_schedules (st : SchedSt) (w : Diag) :
    (addWarn st w).schedules = st.schedules := rfl

@[simp] theorem addWarn_planItems (st : SchedSt) (w : Diag) :
    (addWarn st w).planItems = st.planItems := rfl

@[simp] theorem addWarn_errors (st : SchedSt) (w : Diag) :
    (addWarn st w).errors = st.errors := rfl

@[simp] theorem addWarn_warnings (st : SchedSt) (w : Diag) :
    (addWarn st w).warnings = st.warnings ++ [w] := rfl

@[simp] theorem addErr_schedules (st : SchedSt) (e : Diag) :
    (addErr st e).schedules = st.schedules := rfl

@[simp] theorem addErr_planItems (st : SchedSt) (e : Diag) :
    (addErr st e).planItems = st.planItems := rfl

@[simp] theorem addErr_errors (st : SchedSt) (e : Diag) :
    (addErr st e).errors = st.errors ++ [e] := rfl

@[simp] theorem addErr_warnings (st : SchedSt) (e : Diag) :
    (addErr st e).warnings = st.warnings := rfl

theorem prodPhase_spec (state : AppState) (d : Demand) (eff : ℤ) (best1 : String)
    (throughput : Throughput) (st : SchedSt) (rem : ℚ) (sched : LineSchedule)
    (hv : ValidState state)
    (hinv : RunInv state st.schedules st.planItems)
    (hmem : sched ∈ st.schedules)
    (hsl : sched.lineId = best1)
    (htp : findThroughput state best1 d.referenceId = some throughput)
    (hrem : 0 < rem) :
    IterSpec state d st rem (prodPhase state d eff best1 throughput st rem sched) := by
  have hrate : 0 < throughput.rate :=
    hv.2.1 throughput (List.mem_of_find?_eq_some htp)
  simp only [prodPhase]
  by_cases hav : getAvailableHours sched best1 state ≤ 0
  · rw [if_pos hav]
    have hinv' : RunInv state (updateSched st.schedules (advanceDay sched)) st.planItems :=
      inv_step_advance state hinv hmem
    by_cases hcd : (advanceDay sched).currentDate ≥ eff
    · rw [if_pos hcd]
      exact ⟨hinv', le_of_lt hrem, le_refl _, fun _ => rfl, ⟨[], by simp, by simp⟩, by simp,
        Or.inl rfl, Or.inr ⟨fitWarn d rem, by simp⟩, by simp⟩
    · rw [if_neg hcd]
      exact ⟨hinv', le_of_lt hrem, le_refl _, by simp, ⟨[], by simp, by simp⟩,
        by simp, Or.inl rfl, Or.inl rfl, fun _ => ⟨rfl, rfl⟩⟩
  · rw [if_neg hav]
    push_neg at hav
    have hne0 : (0 : ℚ) < min (rem / throughput.rate) (getAvailableHours sched best1 state) :=
      lt_min (div_pos hrem hrate) hav
    have hqty_pos : (0 : ℚ)
        < min (rem / throughput.rate) (getAvailableHours sched best1 state)
          * throughput.rate := mul_pos hne0 hrate
    have hqty_le : min (rem / throughput.rate) (getAvailableHours sched best1 state)
        * throughput.rate ≤ rem := by
      have h1 : min (rem / throughput.rate) (getAvailableHours sched best1 state)
          ≤ rem / throughput.rate := min_le_left _ _
      calc min (rem / throughput.rate) (getAvailableHours sched best1 state)
            * throughput.rate
          ≤ (rem / throughput.rate) * throughput.rate := by
            exact mul_le_mul_of_nonneg_right h1 (le_of_lt hrate)
        _ = rem := by field_simp
    rcases hplaced : scheduleTask state eff best1 d.referenceId
        (min (rem / throughput.rate) (getAvailableHours sched best1 state) * throughput.rate)
        (min (rem / throughput.rate) (getAvailableHours sched best1 state)) false sched
      with ⟨res, s2⟩
    simp only [hplaced]
    cases res with
    | none =>
      obtain ⟨e1, e2, e3, e4, e5, e6⟩ := scheduleTask_spec state eff best1 d.referenceId _ _
        false sched none s2 hplaced (le_of_lt hne0) (hinv.future sched hmem)
        (hinv.curHour sched hmem)
      rcases e6 with ⟨_, hdaily⟩ | ⟨p, hp, _⟩
      · have hinv' : RunInv state (updateSched st.schedules s2) st.planItems :=
          inv_step_failed state hinv hmem (hsl ▸ e1) e2 hdaily e3 e4 e5
        exact ⟨hinv', le_of_lt hrem, le_refl _, fun _ => rfl, ⟨[], by simp, by simp⟩, by simp,
          Or.inl rfl, Or.inr ⟨Diag.cannotFitWeek d.referenceId rem, by simp⟩, by simp⟩
      · cases hp
    | some item =>
      obtain ⟨e1, e2, e3, e4, e5, e6⟩ := scheduleTask_spec state eff best1 d.referenceId _ _
        false sched (some item) s2 hplaced (le_of_lt hne0) (hinv.future sched hmem)
        (hinv.curHour sched hmem)
      rcases e6 with ⟨hbad, _⟩ | ⟨p, hp, c1, c2, c3, c4, c5, c6, c7, c8, c9, c10, c11, c12⟩
      · cases hbad
      · have hpp : item = p := Option.some.inj hp
        subst hpp
        dsimp only
        rw [if_neg (ne_of_gt hqty_pos)]
        have heq' : scheduleTask state eff sched.lineId d.referenceId
            (min (rem / throughput.rate) (getAvailableHours sched best1 state)
              * throughput.rate)
            (min (rem / throughput.rate) (getAvailableHours sched best1 state))
            false sched = (some item, s2) := by rw [hsl]; exact hplaced
        have hinv' := inv_step_place state hinv hv.2.2.1 hmem heq' (le_of_lt hne0)
          (Or.inr ⟨rfl, rfl⟩) (fun h => by cases h)
        refine ⟨hinv', ?_, ?_, by simp [iterStops], ⟨[item], rfl, ?_⟩, ?_,
          Or.inl rfl, Or.inl rfl, fun _ => ⟨rfl, rfl⟩⟩
        · show 0 ≤ rem - _
          linarith
        · show rem - _ ≤ rem
          linarith
        · intro x hx
          have : x = item := by simpa using hx
          subst this
          exact c2
        · show sumQtyFor (st.planItems ++ [item]) d.referenceId + (rem - _)
            = sumQtyFor st.planItems d.referenceId + rem
          rw [sumQtyFor_append, sumQtyFor_single, if_pos ⟨c2, c5⟩, c3]
          ring

/-- The production phase never touches the error list. -/
theorem prodPhase_errors (state : AppState) (d : Demand) (eff : ℤ) (best1 : String)
    (throughput : Throughput) (st : SchedSt) (rem : ℚ) (sched : LineSchedule) :
    (iterSt (prodPhase state d eff best1 throughput st rem sched)).errors = st.errors := by
  simp only [prodPhase]
  by_cases hav : getAvailableHours sched best1 state ≤ 0
  · rw [if_pos hav]
    by_cases hcd : (advanceDay sched).currentDate ≥ eff
    · rw [if_pos hcd]; simp
    · rw [if_neg hcd]; simp [iterSt]
  · rw [if_neg hav]
    rcases hp : scheduleTask state eff best1 d.referenceId
        (min (rem / throughput.rate) (getAvailableHours sched best1 state) * throughput.rate)
        (min (rem / throughput.rate) (getAvailableHours sched best1 state)) false sched
      with ⟨res, s2⟩
    simp only [hp]
    cases res with
    | none => simp
    | some item =>
      dsimp only
      by_cases hq : min (rem / throughput.rate) (getAvailableHours sched best1 state)
          * throughput.rate = 0
      · rw [if_pos hq]
        by_cases hcd : (advanceDay ⟨s2.lineId, s2.currentDate, s2.currentHour,
            some d.referenceId, s2.dailyHoursUsed⟩).currentDate ≥ eff
        · rw [if_pos hcd]; simp
        · rw [if_neg hcd]; simp [iterSt]
      · rw [if_neg hq]; simp [iterSt]

theorem iterSpec_stop_id (state : AppState) (d : Demand) (st : SchedSt) (rem : ℚ)
    (hinv : RunInv state st.schedules st.planItems) (hrem : 0 ≤ rem) :
    IterSpec state d st rem (.stop st rem) :=
  ⟨hinv, hrem, le_refl _, fun _ => rfl, ⟨[], by simp, by simp⟩, by simp,
    Or.inl rfl, Or.inl rfl, by simp⟩

theorem iterSpec_stop_warn (state : AppState) (d : Demand) (st : SchedSt) (rem : ℚ)
    (hinv : RunInv state st.schedules st.planItems) (hrem : 0 ≤ rem) (w : Diag) :
    IterSpec state d st rem (.stop (addWarn st w) rem) :=
  ⟨hinv, hrem, le_refl _, fun _ => rfl, ⟨[], by simp, by simp⟩, by simp,
    Or.inl (by simp), Or.inr ⟨w, by simp⟩, by simp⟩

theorem iterSpec_stop_err (state : AppState) (d : Demand) (st : SchedSt) (rem : ℚ)
    (hinv : RunInv state st.schedules st.planItems) (hrem : 0 ≤ rem) (e : Diag) :
    IterSpec state d st rem (.stop (addErr st e) rem) :=
  ⟨hinv, hrem, le_refl _, fun _ => rfl, ⟨[], by simp, by simp⟩, by simp,
    Or.inr ⟨e, by simp, by simp⟩, Or.inl (by simp), by simp⟩

/-- Chain an `IterSpec` established from an intermediate state (after a setup
block or a schedule write-back) through to the iteration's entry state. -/
theorem iterSpec_pre (state : AppState) (d : Demand) (st st2 : SchedSt) (rem : ℚ)
    (r : IterRes) (pre : List PlanItem)
    (hpre_items : st2.planItems = st.planItems ++ pre)
    (hpre_ref : ∀ p ∈ pre, p.referenceId = d.referenceId)
    (hpre_qty : sumQtyFor st2.planItems d.referenceId
      = sumQtyFor st.planItems d.referenceId)
    (hpre_err : st2.errors = st.errors)
    (hpre_warn : st2.warnings = st.warnings)
    (h : IterSpec state d st2 rem r)
    (herr2 : (iterSt r).errors = st2.errors) :
    IterSpec state d st rem r := by
  obtain ⟨i1, i2, i3, i4, ⟨newI, hni, hnr⟩, i6, _, i8, i9⟩ := h
  refine ⟨i1, i2, i3, i4, ⟨pre ++ newI, ?_, ?_⟩, ?_, Or.inl (herr2.trans hpre_err), ?_, ?_⟩
  · rw [hni, hpre_items, List.append_assoc]
  · intro p hp
    rcases List.mem_append.mp hp with hp | hp
    · exact hpre_ref p hp
    · exact hnr p hp
  · rw [i6, hpre_qty]
  · rcases i8 with h8 | ⟨w, h8⟩
    · exact Or.inl (h8.trans hpre_warn)
    · exact Or.inr ⟨w, by rw [h8, hpre_warn]⟩
  · intro hstop
    obtain ⟨he, hw⟩ := i9 hstop
    exact ⟨he.trans hpre_err, hw.trans hpre_warn⟩

/-- One loop iteration preserves the run invariant and the per-demand
accounting; additionally, an error is only ever pushed when the remaining
quantity still equals the demand's initial quantity (nothing scheduled). -/
theorem demandIter_spec (state : AppState) (d : Demand) (eff : ℤ) (initialQ : ℚ)
    (st : SchedSt) (rem : ℚ)
    (hv : ValidState state)
    (hinv : RunInv state st.schedules st.planItems)
    (hrem : 0 < rem) :
    IterSpec state d st rem (demandIter state d eff initialQ st rem) ∧
    ((iterSt (demandIter state d eff initialQ st rem)).errors ≠ st.errors
      → rem = initialQ) := by
  simp only [demandIter]
  rcases hfb : findBestLine d.referenceId rem st.schedules state eff st.planItems with _ | best
  · dsimp only
    by_cases hri : rem = initialQ
    · rw [if_pos hri]
      rcases hdl : d.deadline with _ | dl
      all_goals try simp only [hdl]
      · exact ⟨iterSpec_stop_err state d st rem hinv (le_of_lt hrem) _, fun _ => hri⟩
      · exact ⟨iterSpec_stop_err state d st rem hinv (le_of_lt hrem) _, fun _ => hri⟩
    · rw [if_neg hri]
      rcases hdl : d.deadline with _ | dl
      all_goals try simp only [hdl]
      · exact ⟨iterSpec_stop_warn state d st rem hinv (le_of_lt hrem) _,
          fun h => absurd rfl h⟩
      · exact ⟨iterSpec_stop_warn state d st rem hinv (le_of_lt hrem) _,
          fun h => absurd rfl h⟩
  · dsimp only
    rcases hfind : st.schedules.find? (fun s => decide (s.lineId = best.1)) with _ | sched0
    all_goals try simp only [hfind]
    · exact ⟨iterSpec_stop_id state d st rem hinv (le_of_lt hrem), fun h => absurd rfl h⟩
    · obtain ⟨hmem0, hsl0⟩ := find?_sched_facts hfind
      try dsimp only
      by_cases hcd : sched0.currentDate ≥ eff
      · rw [if_pos hcd]
        exact ⟨iterSpec_stop_warn state d st rem hinv (le_of_lt hrem) _,
          fun h => absurd rfl h⟩
      · rw [if_neg hcd]
        rcases htp : findThroughput state best.1 d.referenceId with _ | throughput
        all_goals try simp only [htp]
        · exact ⟨iterSpec_stop_id state d st rem hinv (le_of_lt hrem),
            fun h => absurd rfl h⟩
        · try dsimp only
          rcases hlr : sched0.lastReferenceId with _ | lastRef
          all_goals try simp only [hlr]
          · have hps := prodPhase_spec state d eff best.1 throughput st rem sched0
              hv hinv hmem0 hsl0 htp hrem
            exact ⟨hps, fun h =>
              absurd (prodPhase_errors state d eff best.1 throughput st rem sched0) h⟩
          · try dsimp only
            by_cases hne : lastRef ≠ d.referenceId
            · rw [if_pos hne]
              set sd : ℚ := if getSetupTime best.1 lastRef d.referenceId state > 0 then
                getSetupTime best.1 lastRef d.referenceId state else 0 with hsd_def
              have hsd0 : 0 ≤ sd := by
                rw [hsd_def]
                split_ifs with h
                · exact le_of_lt h
                · exact le_refl 0
              rcases hset : scheduleTask state eff best.1 d.referenceId 0 sd true sched0
                with ⟨sres, s2⟩
              have hset' : scheduleTask state eff sched0.lineId d.referenceId 0 sd true sched0
                  = (sres, s2) := by rw [hsl0]; exact hset
              obtain ⟨e1, e2, e3, e4, e5, e6⟩ := scheduleTask_spec state eff sched0.lineId
                d.referenceId 0 sd true sched0 sres s2 hset' hsd0
                (hinv.future sched0 hmem0) (hinv.curHour sched0 hmem0)
              simp only [hset]
              cases sres with
              | some setupItem =>
                dsimp only
                rcases e6 with ⟨hbad, _⟩ | ⟨p, hp, c1, c2, c3, c4, c5, c6, c7, c8, c9, c10,
                  c11, c12⟩
                · cases hbad
                · have hpp : setupItem = p := Option.some.inj hp
                  subst hpp
                  have hinv2 : RunInv state (updateSched st.schedules s2)
                      (st.planItems ++ [setupItem]) :=
                    inv_step_place state hinv hv.2.2.1 hmem0 hset' hsd0
                      (Or.inl ⟨rfl, rfl⟩) (fun _ => ⟨lastRef, hlr, hne⟩)
                  have hmem2 : s2 ∈ updateSched st.schedules s2 :=
                    self_mem_updateSched ⟨sched0, hmem0, e1.symm⟩
                  have hps := prodPhase_spec state d eff best.1 throughput
                    ⟨updateSched st.schedules s2, st.planItems ++ [setupItem],
                      st.errors, st.warnings⟩ rem s2 hv hinv2 hmem2 (e1.trans hsl0) htp hrem
                  have herr := prodPhase_errors state d eff best.1 throughput
                    ⟨updateSched st.schedules s2, st.planItems ++ [setupItem],
                      st.errors, st.warnings⟩ rem s2
                  refine ⟨iterSpec_pre state d st
                    ⟨updateSched st.schedules s2, st.planItems ++ [setupItem],
                      st.errors, st.warnings⟩ rem _ [setupItem] rfl ?_ ?_ rfl rfl
                    hps herr, fun h => absurd herr h⟩
                  · intro x hx
                    have : x = setupItem := by simpa using hx
                    subst this
                    exact c2
                  · show sumQtyFor (st.planItems ++ [setupItem]) d.referenceId
                      = sumQtyFor st.planItems d.referenceId
                    rw [sumQtyFor_append, sumQtyFor_single,
                      if_neg (fun hc => by rw [c5] at hc; cases hc.2), add_zero]
              | none =>
                dsimp only
                rcases e6 with ⟨_, hdaily⟩ | ⟨p, hp, _⟩
                · have hinv1 : RunInv state (updateSched st.schedules s2) st.planItems :=
                    inv_step_failed state hinv hmem0 e1 e2 hdaily e3 e4 e5
                  by_cases hsd : sd > 0
                  · rw [if_pos hsd]
                    refine ⟨iterSpec_pre state d st
                      ⟨updateSched st.schedules s2, st.planItems, st.errors, st.warnings⟩
                      rem _ [] (by simp) (by simp) rfl rfl rfl
                      (iterSpec_stop_warn state d _ rem hinv1 (le_of_lt hrem) _) (by simp),
                      fun h => absurd rfl h⟩
                  · rw [if_neg hsd]
                    have hmem2 : s2 ∈ updateSched st.schedules s2 :=
                      self_mem_updateSched ⟨sched0, hmem0, e1.symm⟩
                    have hps := prodPhase_spec state d eff best.1 throughput
                      ⟨updateSched st.schedules s2, st.planItems, st.errors, st.warnings⟩
                      rem s2 hv hinv1 hmem2 (e1.trans hsl0) htp hrem
                    have herr := prodPhase_errors state d eff best.1 throughput
                      ⟨updateSched st.schedules s2, st.planItems, st.errors, st.warnings⟩
                      rem s2
                    exact ⟨iterSpec_pre state d st
                      ⟨updateSched st.schedules s2, st.planItems, st.errors, st.warnings⟩
                      rem _ [] (by simp) (by simp) rfl rfl rfl
                      hps herr, fun h => absurd herr h⟩
                · cases hp
            · rw [if_neg hne]
              have hps := prodPhase_spec state d eff best.1 throughput st rem sched0
                hv hinv hmem0 hsl0 htp hrem
              exact ⟨hps, fun h =>
                absurd (prodPhase_errors state d eff best.1 throughput st rem sched0) h⟩

/-- The per-demand loop preserves the run invariant, only ever schedules the
demand's own reference, never over-schedules it, pushes an error only on a
demand with nothing scheduled (and then no warning), and pushes no diagnostic
at all when the demand ends fully scheduled. -/
theorem demandLoop_spec (state : AppState) (d : Demand) (eff : ℤ) (initialQ : ℚ) :
    ∀ (fuel : ℕ) (st : SchedSt) (rem : ℚ) (res : SchedSt × ℚ),
    demandLoop state d eff initialQ fuel st rem = res →
    ValidState state →
    RunInv state st.schedules st.planItems →
    0 ≤ rem →
    (RunInv state res.1.schedules res.1.planItems ∧
     0 ≤ res.2 ∧ res.2 ≤ rem ∧
     (∃ newItems, res.1.planItems = st.planItems ++ newItems ∧
       ∀ p ∈ newItems, p.referenceId = d.referenceId) ∧
     sumQtyFor res.1.planItems d.referenceId + res.2
       = sumQtyFor st.planItems d.referenceId + rem ∧
     (res.1.errors ≠ st.errors →
       (∃ e, res.1.errors = st.errors ++ [e]) ∧ res.2 = initialQ
         ∧ res.1.warnings = st.warnings) ∧
     (res.1.warnings = st.warnings ∨ ∃ w, res.1.warnings = st.warnings ++ [w]) ∧
     (res.2 = 0 → res.1.errors = st.errors ∧ res.1.warnings = st.warnings)) := by
  intro fuel
  induction fuel with
  | zero =>
    intro st rem res heq hv hinv hrem
    simp only [demandLoop] at heq
    subst heq
    exact ⟨hinv, hrem, le_refl _, ⟨[], by simp, by simp⟩, rfl,
      fun h => absurd rfl h, Or.inl rfl, fun _ => ⟨rfl, rfl⟩⟩
  | succ fuel ih =>
    intro st rem res heq hv hinv hrem
    simp only [demandLoop] at heq
    by_cases h : rem > 0
    · rw [if_pos h] at heq
      obtain ⟨ispec, iextra⟩ := demandIter_spec state d eff initialQ st rem hv hinv h
      cases hit : demandIter state d eff initialQ st rem with
      | stop st' rem' =>
        rw [hit] at heq ispec iextra
        simp only [IterSpec, iterSt_stop, iterRem_stop, iterStops_stop] at ispec
        dsimp only at heq
        subst heq
        obtain ⟨i1, i2, i3, i4, ⟨newI, hni, hnr⟩, i6, i7, i8, _⟩ := ispec
        refine ⟨i1, i2, i3, ⟨newI, hni, hnr⟩, i6, ?_, i8, ?_⟩
        · intro hne
          rcases i7 with h7 | ⟨e, he, hw⟩
          · exact absurd h7 hne
          · exact ⟨⟨e, he⟩, (i4 trivial).trans (iextra hne), hw⟩
        · intro h0
          have hre : rem' = rem := i4 trivial
          rw [hre] at h0
          exact absurd h0 (ne_of_gt h)
      | cont st' rem' =>
        rw [hit] at heq ispec
        simp only [IterSpec, iterSt_cont, iterRem_cont, iterStops_cont] at ispec
        dsimp only at heq
        obtain ⟨i1, i2, i3, _, ⟨newI, hni, hnr⟩, i6, _, _, i9⟩ := ispec
        obtain ⟨hie, hiw⟩ := i9 trivial
        obtain ⟨j1, j2, j3, ⟨newJ, hnj, hnjr⟩, j5, j6, j7, j8⟩ :=
          ih st' rem' res heq hv i1 i2
        refine ⟨j1, j2, le_trans j3 i3, ⟨newI ++ newJ, ?_, ?_⟩, ?_, ?_, ?_, ?_⟩
        · rw [hnj, hni, List.append_assoc]
        · intro p hp
          rcases List.mem_append.mp hp with hp | hp
          · exact hnr p hp
          · exact hnjr p hp
        · rw [j5, i6]
        · intro hne
          have hne' : res.1.errors ≠ st'.errors := by rw [hie]; exact hne
          obtain ⟨⟨e, he⟩, hq, hw⟩ := j6 hne'
          exact ⟨⟨e, by rw [he, hie]⟩, hq, by rw [hw, hiw]⟩
        · rcases j7 with h7 | ⟨w, h7⟩
          · exact Or.inl (h7.trans hiw)
          · exact Or.inr ⟨w, by rw [h7, hiw]⟩
        · intro h0
          obtain ⟨he, hw⟩ := j8 h0
          exact ⟨he.trans hie, hw.trans hiw⟩
    · rw [if_neg h] at heq
      subst heq
      exact ⟨hinv, hrem, le_refl _, ⟨[], by simp, by simp⟩, rfl,
        fun hc => absurd rfl hc, Or.inl rfl, fun _ => ⟨rfl, rfl⟩⟩

theorem sumQtyFor_eq_zero_of_ref (items : List PlanItem) (r : String)
    (h : ∀ p ∈ items, p.referenceId ≠ r) : sumQtyFor items r = 0 := by
  have : items.filter (fun p => decide (p.referenceId = r) && !p.isSetup) = [] := by
    apply List.filter_eq_nil_iff.mpr
    intro p hp
    simp [h p hp]
  simp [sumQtyFor, this]

/-- The invariant holds for the freshly initialised run state. -/
theorem inv_init (state : AppState) (startDate : ℤ)
    (hva : ∀ a ∈ state.availabilities, 0 ≤ a.hoursAvailable ∧ a.hoursAvailable ≤ 24) :
    RunInv state (initSchedules state startDate) [] := by
  have hmem : ∀ s ∈ initSchedules state startDate,
      s.currentHour = 0 ∧ s.lastReferenceId = none ∧ s.dailyHoursUsed = [] := by
    intro s hs
    simp only [initSchedules, List.mem_map] at hs
    obtain ⟨l, _, rfl⟩ := hs
    exact ⟨rfl, rfl, rfl⟩
  refine ⟨?_, ?_, ?_, ?_, ?_, ?_, ?_, ?_, ?_, ?_, ?_, ?_, ?_⟩
  · simp [initSchedules]
  · intro s hs d
    rw [(hmem s hs).2.2, lookupUsed_nil]
    simp [sumDurOn, itemsOfLine]
  · intro s hs d
    rw [(hmem s hs).2.2, lookupUsed_nil]
    exact cfgHours_nonneg state s.lineId d hva
  · intro s hs d _
    rw [(hmem s hs).2.2, lookupUsed_nil]
  · intro s hs
    rw [(hmem s hs).2.2, lookupUsed_nil, (hmem s hs).1]
  · intro s _ p hp
    cases hp
  · intro s _ p hp
    cases hp
  · intro p hp
    cases hp
  · intro s hs
    rw [(hmem s hs).2.1]
    rfl
  · intro p hp
    cases hp
  · intro l
    simp [itemsOfLine]
  · intro l pre p post hsplit
    simp only [itemsOfLine, List.filter_nil] at hsplit
    exact absurd hsplit.symm (List.append_ne_nil_of_right_ne_nil pre (by simp))
  · intro k p hk
    simp at hk

/-- `processDemand` behaves as one full `demandLoop` run from the demand's
full quantity, with the effective deadline `min(deadline, endDate)`. -/
theorem processDemand_spec (state : AppState) (endDate : ℤ) (st : SchedSt) (d : Demand)
    (res : SchedSt × ℚ)
    (heq : processDemand state endDate st d = res)
    (hv : ValidState state)
    (hinv : RunInv state st.schedules st.planItems)
    (hq : 0 ≤ d.quantity) :
    RunInv state res.1.schedules res.1.planItems ∧
    0 ≤ res.2 ∧ res.2 ≤ d.quantity ∧
    (∃ newItems, res.1.planItems = st.planItems ++ newItems ∧
      ∀ p ∈ newItems, p.referenceId = d.referenceId) ∧
    sumQtyFor res.1.planItems d.referenceId + res.2
      = sumQtyFor st.planItems d.referenceId + d.quantity ∧
    (res.1.errors ≠ st.errors →
      (∃ e, res.1.errors = st.errors ++ [e]) ∧ res.2 = d.quantity
        ∧ res.1.warnings = st.warnings) ∧
    (res.1.warnings = st.warnings ∨ ∃ w, res.1.warnings = st.warnings ++ [w]) ∧
    (res.2 = 0 → res.1.errors = st.errors ∧ res.1.warnings = st.warnings) := by
  simp only [processDemand] at heq
  exact demandLoop_spec state d _ d.quantity (schedFuel state) st d.quantity res heq hv hinv hq

theorem stableInsert_perm (a : Demand) (l : List Demand) :
    (stableInsert a l).Perm (a :: l) := by
  induction l with
  | nil => simp [stableInsert]
  | cons b rest ih =>
    by_cases h : demandCmp b a ≤ 0
    · simp only [stableInsert, if_pos h]
      exact (ih.cons b).trans (List.Perm.swap a b rest)
    · simp only [stableInsert, if_neg h]
      exact List.Perm.refl _

/-- The demand sort is a permutation of its input. -/
theorem sortDemands_perm (l : List Demand) : (sortDemands l).Perm l := by
  have key : ∀ (l acc : List Demand),
      (l.foldl (fun acc a => stableInsert a acc) acc).Perm (acc ++ l) := by
    intro l
    induction l with
    | nil => intro acc; simp
    | cons x rest ih =>
      intro acc
      have h1 := ih (stableInsert x acc)
      have h2 : (stableInsert x acc ++ rest).Perm ((x :: acc) ++ rest) :=
        (stableInsert_perm x acc).append_right rest
      have h3 : ((x :: acc) ++ rest).Perm (acc ++ x :: rest) := by
        simpa using List.perm_middle.symm
      exact (h1.trans h2).trans h3
  simpa using key l []

/-- Folding the per-demand processing over a demand list keeps the invariant
and schedules at most the summed demanded quantity of every reference. -/
theorem fold_spec (state : AppState) (endDate : ℤ)
    (hv : ValidState state) :
    ∀ (ds : List Demand) (st : SchedSt),
    RunInv state st.schedules st.planItems →
    (∀ d ∈ ds, 0 ≤ d.quantity) →
    (RunInv state
        (ds.foldl (fun st d => (processDemand state endDate st d).1) st).schedules
        (ds.foldl (fun st d => (processDemand state endDate st d).1) st).planItems ∧
      ∀ r, sumQtyFor
          (ds.foldl (fun st d => (processDemand state endDate st d).1) st).planItems r
        ≤ sumQtyFor st.planItems r
          + ((ds.filter (fun d => decide (d.referenceId = r))).map (·.quantity)).sum) := by
  intro ds
  induction ds with
  | nil =>
    intro st hinv _
    exact ⟨hinv, fun r => by simp⟩
  | cons d rest ih =>
    intro st hinv hq
    obtain ⟨p1, p2, p3, ⟨newI, hni, hnr⟩, p5, _, _, _⟩ :=
      processDemand_spec state endDate st d (processDemand state endDate st d) rfl
        hv hinv (hq d (by simp))
    obtain ⟨f1, f2⟩ := ih (processDemand state endDate st d).1 p1
      (fun x hx => hq x (by simp [hx]))
    refine ⟨f1, fun r => ?_⟩
    have hstep : sumQtyFor (processDemand state endDate st d).1.planItems r
        ≤ sumQtyFor st.planItems r + (if d.referenceId = r then d.quantity else 0) := by
      by_cases hr : d.referenceId = r
      · subst hr
        rw [if_pos rfl]
        linarith
      · rw [if_neg hr, add_zero, hni, sumQtyFor_append,
          sumQtyFor_eq_zero_of_ref newI r (fun p hp => by rw [hnr p hp]; exact hr), add_zero]
    calc sumQtyFor (List.foldl (fun st d => (processDemand state endDate st d).1)
          ((processDemand state endDate st d).1) rest).planItems r
        ≤ sumQtyFor (processDemand state endDate st d).1.planItems r
          + ((rest.filter (fun x => decide (x.referenceId = r))).map (·.quantity)).sum :=
          f2 r
      _ ≤ sumQtyFor st.planItems r + (if d.referenceId = r then d.quantity else 0)
          + ((rest.filter (fun x => decide (x.referenceId = r))).map (·.quantity)).sum := by
          linarith
      _ = sumQtyFor st.planItems r
          + (((d :: rest).filter (fun x => decide (x.referenceId = r))).map (·.quantity)).sum := by
          rw [List.filter_cons]
          by_cases hr : d.referenceId = r
          · simp [hr]
            ring
          · simp [hr]

/-- The scheduling phase establishes the run invariant for its final state and
never schedules more of a reference than the total demanded quantity. -/
theorem runSchedule_spec (state : AppState) (today : ℤ) (hv : ValidState state) :
    RunInv state (runSchedule state today).schedules (runSchedule state today).planItems ∧
    ∀ r, sumQtyFor (runSchedule state today).planItems r ≤ demandTotal state r := by
  have hq : ∀ d ∈ sortDemands state.demands, 0 ≤ d.quantity := by
    intro d hd
    exact le_of_lt (hv.2.2.2.2 d ((sortDemands_perm state.demands).mem_iff.mp hd))
  obtain ⟨f1, f2⟩ := fold_spec state (weekStart today + 7) hv (sortDemands state.demands)
    ⟨initSchedules state (weekStart today), [], [],
      if state.setupTimes.isEmpty then [Diag.noSetupTimes] else []⟩
    (inv_init state (weekStart today) hv.2.2.1) hq
  refine ⟨f1, fun r => ?_⟩
  have hperm : (((sortDemands state.demands).filter
      (fun d => decide (d.referenceId = r))).map (·.quantity)).sum
      = demandTotal state r := by
    unfold demandTotal
    exact List.Perm.sum_eq (((sortDemands_perm state.demands).filter _).map _)
  have h2 := f2 r
  rw [hperm] at h2
  calc sumQtyFor (runSchedule state today).planItems r
      ≤ sumQtyFor (([] : List PlanItem)) r + demandTotal state r := h2
    _ = demandTotal state r := by simp [sumQtyFor]

/-- The result of a run is either one of the five validation early returns
(with an empty plan) or the plan of the scheduling phase. -/
theorem generate_cases (state : AppState) (today : ℤ) :
    (generateProductionPlan state today).planItems = [] ∨
    (generateProductionPlan state today).planItems = (runSchedule state today).planItems := by
  unfold generateProductionPlan
  split_ifs <;> simp

theorem demandLE_iff_cmp (a b : Demand) : demandLE a b ↔ demandCmp a b ≤ 0 := by
  obtain ⟨ra, qa, dla⟩ := a
  obtain ⟨rb, qb, dlb⟩ := b
  cases dla <;> cases dlb <;> dsimp only [demandLE, demandCmp]
  · exact sub_nonpos.symm
  · norm_num
  · norm_num
  · rw [sub_nonpos]
    constructor <;> intro h <;> exact_mod_cast h

theorem demandCmp_neg (a b : Demand) : demandCmp b a = -demandCmp a b := by
  obtain ⟨ra, qa, dla⟩ := a
  obtain ⟨rb, qb, dlb⟩ := b
  cases dla <;> cases dlb <;> dsimp only [demandCmp] <;> ring

theorem demandKey_eq_iff (a b : Demand) : demandKey a = demandKey b ↔ demandCmp a b = 0 := by
  obtain ⟨ra, qa, dla⟩ := a
  obtain ⟨rb, qb, dlb⟩ := b
  cases dla <;> cases dlb <;> dsimp only [demandKey, demandCmp] <;> simp
  · constructor <;> intro h <;> linarith
  · constructor <;> intro h
    · exact_mod_cast sub_eq_zero.mpr (by exact_mod_cast h)
    · have hq : ((_ : ℤ) : ℚ) = _ := sub_eq_zero.mp h
      exact_mod_cast hq

theorem demandCmp_trans_le (a b c : Demand) (h1 : demandCmp a b ≤ 0) (h2 : demandCmp b c ≤ 0) :
    demandCmp a c ≤ 0 := by
  obtain ⟨ra, qa, dla⟩ := a
  obtain ⟨rb, qb, dlb⟩ := b
  obtain ⟨rc, qc, dlc⟩ := c
  cases dla <;> cases dlb <;> cases dlc <;> dsimp only [demandCmp] at * <;> linarith

theorem demandCmp_trans_lt (a b c : Demand) (h1 : demandCmp a b < 0) (h2 : demandCmp b c ≤ 0) :
    demandCmp a c < 0 := by
  obtain ⟨ra, qa, dla⟩ := a
  obtain ⟨rb, qb, dlb⟩ := b
  obtain ⟨rc, qc, dlc⟩ := c
  cases dla <;> cases dlb <;> cases dlc <;> dsimp only [demandCmp] at * <;> linarith

theorem stableInsert_props (a : Demand) :
    ∀ acc : List Demand, acc.Pairwise demandLE →
    ((stableInsert a acc).Pairwise demandLE ∧
     ∀ k, (stableInsert a acc).filter (fun x => decide (demandKey x = k))
       = if demandKey a = k then
           acc.filter (fun x => decide (demandKey x = k)) ++ [a]
         else acc.filter (fun x => decide (demandKey x = k))) := by
  intro acc
  induction acc with
  | nil =>
    intro _
    refine ⟨List.pairwise_singleton _ _, fun k => ?_⟩
    by_cases hk : demandKey a = k <;> simp [stableInsert, hk]
  | cons b rest ih =>
    intro hp
    rw [List.pairwise_cons] at hp
    obtain ⟨hb, hrest⟩ := hp
    obtain ⟨ih1, ih2⟩ := ih hrest
    by_cases h : demandCmp b a ≤ 0
    · rw [show stableInsert a (b :: rest) = b :: stableInsert a rest from by
        simp [stableInsert, h]]
      constructor
      · rw [List.pairwise_cons]
        refine ⟨?_, ih1⟩
        intro x hx
        have hx' := (stableInsert_perm a rest).mem_iff.mp hx
        rcases List.mem_cons.mp hx' with rfl | hx'
        · exact (demandLE_iff_cmp b x).mpr h
        · exact hb x hx'
      · intro k
        rw [List.filter_cons, List.filter_cons, ih2 k]
        by_cases hak : demandKey a = k <;> by_cases hbk : demandKey b = k <;>
          simp [hak, hbk]
    · rw [show stableInsert a (b :: rest) = a :: b :: rest from by
        simp [stableInsert, h]]
      push_neg at h
      have hab : demandCmp a b < 0 := by
        have := demandCmp_neg a b
        linarith
      constructor
      · rw [List.pairwise_cons]
        refine ⟨?_, List.pairwise_cons.mpr ⟨hb, hrest⟩⟩
        intro x hx
        rcases List.mem_cons.mp hx with rfl | hx
        · exact (demandLE_iff_cmp a x).mpr (le_of_lt hab)
        · exact (demandLE_iff_cmp a x).mpr
            (le_of_lt (demandCmp_trans_lt a b x hab ((demandLE_iff_cmp b x).mp (hb x hx))))
      · intro k
        have hnone : ∀ x ∈ b :: rest, demandKey a = k → demandKey x ≠ k := by
          intro x hx hak hxk
          have hxa : demandKey a = demandKey x := by rw [hak, hxk]
          have hcmp0 : demandCmp a x = 0 := (demandKey_eq_iff a x).mp hxa
          rcases List.mem_cons.mp hx with rfl | hx
          · linarith
          · have := demandCmp_trans_lt a b x hab ((demandLE_iff_cmp b x).mp (hb x hx))
            linarith
        rw [List.filter_cons]
        by_cases hak : demandKey a = k
        · have hempty : (b :: rest).filter (fun x => decide (demandKey x = k)) = [] := by
            apply List.filter_eq_nil_iff.mpr
            intro x hx
            simp [hnone x hx hak]
          simp [hak, hempty]
        · simp [hak]

/-- Sorting with the engine's comparator yields a `demandLE`-sorted list that
is key-class stable. -/
theorem sortDemands_props (l : List Demand) :
    (sortDemands l).Pairwise demandLE ∧
    ∀ k, (sortDemands l).filter (fun x => decide (demandKey x = k))
      = l.filter (fun x => decide (demandKey x = k)) := by
  have key : ∀ (l acc : List Demand), acc.Pairwise demandLE →
      ((l.foldl (fun acc a => stableInsert a acc) acc).Pairwise demandLE ∧
       ∀ k, (l.foldl (fun acc a => stableInsert a acc) acc).filter
           (fun x => decide (demandKey x = k))
         = acc.filter (fun x => decide (demandKey x = k))
           ++ l.filter (fun x => decide (demandKey x = k))) := by
    intro l
    induction l with
    | nil => intro acc hacc; exact ⟨hacc, fun k => by simp⟩
    | cons x rest ih =>
      intro acc hacc
      obtain ⟨s1, s2⟩ := stableInsert_props x acc hacc
      obtain ⟨f1, f2⟩ := ih (stableInsert x acc) s1
      refine ⟨f1, fun k => ?_⟩
      rw [List.foldl_cons, f2 k, s2 k, List.filter_cons]
      by_cases hxk : demandKey x = k
      · simp [hxk]
      · simp [hxk]
  obtain ⟨s1, s2⟩ := key l [] List.Pairwise.nil
  exact ⟨s1, fun k => by have := s2 k; simpa using this⟩

theorem getAvailableHours_nonneg (schedule : LineSchedule) (lineId : String)
    (state : AppState) : 0 ≤ getAvailableHours schedule lineId state := by
  unfold getAvailableHours
  cases findAvail state lineId (euDow schedule.currentDate) with
  | none => exact le_refl 0
  | some a => exact le_max_left 0 _

theorem demandTotal_nonneg (state : AppState) (r : String)
    (hq : ∀ d ∈ state.demands, 0 < d.quantity) : 0 ≤ demandTotal state r := by
  unfold demandTotal
  apply List.sum_nonneg
  intro x hx
  simp only [List.mem_map] at hx
  obtain ⟨d, hd, rfl⟩ := hx
  exact le_of_lt (hq d (List.mem_of_mem_filter hd))

/-- Any plan item returned by the calendar packer carries exactly the line,
reference, quantity, duration and setup flag it was asked to place. -/
theorem scheduleTaskGo_item (state : AppState) (endDate : ℤ) (lineId referenceId : String)
    (quantity duration : ℚ) (isSetup : Bool) :
    ∀ (fuel : ℕ) (s : LineSchedule) (p : PlanItem) (s' : LineSchedule),
    scheduleTaskGo state endDate lineId referenceId quantity duration isSetup fuel s
      = (some p, s') →
    p.lineId = lineId ∧ p.referenceId = referenceId ∧ p.quantity = quantity ∧
      p.duration = duration ∧ p.isSetup = isSetup := by
  intro fuel
  induction fuel with
  | zero =>
    intro s p s' heq
    simp [scheduleTaskGo] at heq
  | succ n ih =>
    intro s p s' heq
    simp only [scheduleTaskGo] at heq
    by_cases h1 : s.currentDate ≥ endDate
    · rw [if_pos h1] at heq
      simp at heq
    · rw [if_neg h1] at heq
      by_cases h2 : duration > getAvailableHours s lineId state
      · rw [if_pos h2] at heq
        by_cases h3 : (advanceDay s).currentDate ≥ endDate
        · rw [if_pos h3] at heq
          simp at heq
        · rw [if_neg h3] at heq
          exact ih _ p s' heq
      · rw [if_neg h2] at heq
        have h4 : some (⟨s.currentDate, lineId, referenceId, quantity, duration,
            s.currentHour, isSetup⟩ : PlanItem) = some p := congrArg Prod.fst heq
        have h5 := Option.some.inj h4
        rw [← h5]
        exact ⟨rfl, rfl, rfl, rfl, rfl⟩

/-- Same statement through the `scheduleTask` wrapper. -/
theorem scheduleTask_item (state : AppState) (endDate : ℤ) (lineId referenceId : String)
    (quantity duration : ℚ) (isSetup : Bool) (s : LineSchedule) (p : PlanItem)
    (s' : LineSchedule)
    (heq : scheduleTask state endDate lineId referenceId quantity duration isSetup s
      = (some p, s')) :
    p.lineId = lineId ∧ p.referenceId = referenceId ∧ p.quantity = quantity ∧
      p.duration = duration ∧ p.isSetup = isSetup :=
  scheduleTaskGo_item state endDate lineId referenceId quantity duration isSetup
    _ s p s' heq

/-- The production phase appends at most one plan item, and any item it
appends is a production (non-setup) block of the processed demand's
reference. -/
theorem prodPhase_items (state : AppState) (d : Demand) (eff : ℤ) (best1 : String)
    (tp : Throughput) (st : SchedSt) (rem : ℚ) (sched : LineSchedule) :
    ∃ tail, (iterSt (prodPhase state d eff best1 tp st rem sched)).planItems
        = st.planItems ++ tail ∧ tail.length ≤ 1 ∧
      ∀ p ∈ tail, p.isSetup = false ∧ p.referenceId = d.referenceId := by
  simp only [prodPhase]
  by_cases hav : getAvailableHours sched best1 state ≤ 0
  · rw [if_pos hav]
    by_cases hcd : (advanceDay sched).currentDate ≥ eff
    · rw [if_pos hcd]
      exact ⟨[], by simp [iterSt, addWarn], by simp, by simp⟩
    · rw [if_neg hcd]
      exact ⟨[], by simp [iterSt], by simp, by simp⟩
  · rw [if_neg hav]
    rcases hplaced : scheduleTask state eff best1 d.referenceId
        (min (rem / tp.rate) (getAvailableHours sched best1 state) * tp.rate)
        (min (rem / tp.rate) (getAvailableHours sched best1 state)) false sched
      with ⟨res, s2⟩
    simp only [hplaced]
    cases res with
    | none =>
      exact ⟨[], by simp [iterSt, addWarn], by simp, by simp⟩
    | some item =>
      obtain ⟨_, hrf, _, _, hsu⟩ := scheduleTask_item state eff best1 d.referenceId _ _
        false sched item s2 hplaced
      have hmem1 : ∀ p ∈ [item], p.isSetup = false ∧ p.referenceId = d.referenceId := by
        intro p hp
        have : p = item := by simpa using hp
        subst this
        exact ⟨hsu, hrf⟩
      dsimp only
      by_cases hq0 : min (rem / tp.rate) (getAvailableHours sched best1 state) * tp.rate = 0
      · rw [if_pos hq0]
        by_cases hcd : (advanceDay ⟨s2.lineId, s2.currentDate, s2.currentHour,
            some d.referenceId, s2.dailyHoursUsed⟩).currentDate ≥ eff
        · rw [if_pos hcd]
          exact ⟨[item], by simp [iterSt, addWarn], by simp, hmem1⟩
        · rw [if_neg hcd]
          exact ⟨[item], by simp [iterSt], by simp, hmem1⟩
      · rw [if_neg hq0]
        exact ⟨[item], by simp [iterSt], by simp, hmem1⟩

/-- Any warning the production phase adds is a "cannot fit" fulfilment
warning, never the setup-placement warning. -/
theorem prodPhase_warns (state : AppState) (d : Demand) (eff : ℤ) (best1 : String)
    (tp : Throughput) (st : SchedSt) (rem : ℚ) (sched : LineSchedule) :
    ∀ w ∈ (iterSt (prodPhase state d eff best1 tp st rem sched)).warnings,
      w ∈ st.warnings ∨ ¬ IsSetupFitWarn w := by
  have hfit : ∀ q : ℚ, ¬ IsSetupFitWarn (fitWarn d q) := by
    intro q
    unfold fitWarn
    cases d.deadline <;> simp [IsSetupFitWarn]
  have hweek : ∀ q : ℚ, ¬ IsSetupFitWarn (Diag.cannotFitWeek d.referenceId q) := by
    intro q
    simp [IsSetupFitWarn]
  simp only [prodPhase]
  by_cases hav : getAvailableHours sched best1 state ≤ 0
  · rw [if_pos hav]
    by_cases hcd : (advanceDay sched).currentDate ≥ eff
    · rw [if_pos hcd]
      intro w hw
      simp only [iterSt, addWarn, List.mem_append, List.mem_singleton] at hw
      rcases hw with hw | hw
      · exact Or.inl hw
      · exact Or.inr (hw ▸ hfit rem)
    · rw [if_neg hcd]
      intro w hw
      exact Or.inl hw
  · rw [if_neg hav]
    rcases hplaced : scheduleTask state eff best1 d.referenceId
        (min (rem / tp.rate) (getAvailableHours sched best1 state) * tp.rate)
        (min (rem / tp.rate) (getAvailableHours sched best1 state)) false sched
      with ⟨res, s2⟩
    simp only [hplaced]
    cases res with
    | none =>
      intro w hw
      simp only [iterSt, addWarn, List.mem_append, List.mem_singleton] at hw
      rcases hw with hw | hw
      · exact Or.inl hw
      · exact Or.inr (hw ▸ hweek rem)
    | some item =>
      dsimp only
      by_cases hq0 : min (rem / tp.rate) (getAvailableHours sched best1 state) * tp.rate = 0
      · rw [if_pos hq0]
        by_cases hcd : (advanceDay ⟨s2.lineId, s2.currentDate, s2.currentHour,
            some d.referenceId, s2.dailyHoursUsed⟩).currentDate ≥ eff
        · rw [if_pos hcd]
          intro w hw
          simp only [iterSt, addWarn, List.mem_append, List.mem_singleton] at hw
          rcases hw with hw | hw
          · exact Or.inl hw
          · exact Or.inr (hw ▸ hfit _)
        · rw [if_neg hcd]
          intro w hw
          exact Or.inl hw
      · rw [if_neg hq0]
        intro w hw
        exact Or.inl hw

unseal Rat.add Rat.mul Rat.sub Rat.inv in
/-- C1: refuted on `exSplit`.  At the run state the engine actually reaches
when it must pick a line for the 10 t of `R` (after the `S` demand is
placed on line `A`), the engine's weighted cost-sum selector `findBestLine`
picks line `B`, while the claimed 3-tier policy (stickiness → preferred
line → ranked fallback) picks the preferred highest-rate line `A`; the
emitted plan indeed produces `R` on `B`.  So the choice does not follow the
3-tier priority policy and is made by weighted cost-sum scoring. -/
theorem c1_cost_sum_diverges_from_three_tier :
    (let st0 : SchedSt := ⟨initSchedules exSplit 4, [], [], []⟩
     let st1 := (processDemand exSplit 11 st0 ⟨"S", 20, none⟩).1
     (findBestLine "R" 10 st1.schedules exSplit 11 st1.planItems).map Prod.fst
         = some "B" ∧
     selectLineForDemand exSplit "R" 10 st1.schedules 11 st1.planItems
         (identifyPreferredLine exSplit "R" 4) = some "A") ∧
    ((generateProductionPlan exSplit 4).planItems.filter
        (fun p => decide (p.referenceId = "R") && !p.isSetup)).map (·.lineId)
      = ["B"] := by decide

unseal Rat.add Rat.mul Rat.sub Rat.inv in
/-- C2: refuted on `exShort`.  The run ends with the `R` demand short by
240 t (240 of 480 scheduled) while its only line still has a full idle day
inside the horizon (date 5, before the week end 11; 24 configured hours, 0
used) and holds a throughput entry for `R` — yet the returned plan contains
no further production for `R`: no capacity-fill pass runs. -/
theorem c2_no_capacity_fill_pass :
    sumQtyFor (generateProductionPlan exShort 4).planItems "R" = 240 ∧
    demandTotal exShort "R" = 480 ∧
    findThroughput exShort "L" "R" = some ⟨"L", "R", 10⟩ ∧
    sumDurOn (generateProductionPlan exShort 4).planItems "L" 5 = 0 ∧
    cfgHours exShort "L" 5 = 24 ∧
    weekStart 4 = 4 := by decide

unseal Rat.add Rat.mul Rat.sub Rat.inv in
/-- C3: refuted.  The engine has no explicit target-week input: it derives
the planning week from the wall clock (`new Date()`, the `today` argument
of the embedding).  Two runs on the identical configuration snapshot
`exSingle`, one week apart in wall-clock time, return different plans. -/
theorem c3_output_depends_on_wall_clock :
    generateProductionPlan exSingle 4 ≠ generateProductionPlan exSingle 11 := by decide

unseal Rat.add Rat.mul Rat.sub Rat.inv in
/-- C6 counterexample: on `exSetupFail` the `R` demand gets zero tons
scheduled, yet the run records no error for it — only the setup-placement
warning — refuting both "error iff zero scheduled" and "warning iff
partial fulfilment". -/
theorem c6_zero_scheduled_yields_warning_not_error :
    sumQtyFor (generateProductionPlan exSetupFail 4).planItems "R" = 0 ∧
    (generateProductionPlan exSetupFail 4).errors = [] ∧
    (generateProductionPlan exSetupFail 4).warnings
      = [Diag.cannotFitSetup "R" 100 (some "Line L")] := by decide

unseal Rat.add Rat.mul Rat.sub Rat.inv in
/-- C7 counterexample: for two demands with equal deadlines the engine's
comparator returns 0 and the stable sort keeps insertion order, while the
claimed ordering (descending quantity as a tiebreak within every group,
also among equal deadlines) would swap them. -/
theorem c7_equal_deadlines_keep_insertion_order :
    sortDemands [⟨"X", 5, some 0⟩, ⟨"Y", 10, some 0⟩]
        = [⟨"X", 5, some 0⟩, ⟨"Y", 10, some 0⟩] ∧
    claimedSortDemands [⟨"X", 5, some 0⟩, ⟨"Y", 10, some 0⟩]
        = [⟨"Y", 10, some 0⟩, ⟨"X", 5, some 0⟩] := by decide

/-- C4: for every valid configuration, every line and every calendar date,
the summed durations of the returned plan items on that line and date stay
within the configured availability hours of that line for the date's
weekday (0 when no availability entry exists). -/
theorem c4_daily_capacity_within_availability (state : AppState) (today : ℤ)
    (hv : ValidState state) (l : String) (d : ℤ) :
    sumDurOn (generateProductionPlan state today).planItems l d ≤ cfgHours state l d := by
  rcases generate_cases state today with h | h
  · rw [h]
    have hz : sumDurOn ([] : List PlanItem) l d = 0 := by simp [sumDurOn, itemsOfLine]
    rw [hz]
    exact cfgHours_nonneg state l d hv.2.2.1
  · rw [h]
    obtain ⟨inv, -⟩ := runSchedule_spec state today hv
    by_cases hex : ∃ s ∈ (runSchedule state today).schedules, s.lineId = l
    · obtain ⟨s, hs, hsl⟩ := hex
      have h1 := inv.usedEq s hs d
      have h2 := inv.usedLe s hs d
      rw [hsl] at h1 h2
      rw [← h1]
      exact h2
    · push_neg at hex
      have hz : sumDurOn (runSchedule state today).planItems l d = 0 := by
        apply sumDurOn_eq_zero
        intro p hp
        obtain ⟨s, hs, hsl⟩ := inv.covered p hp
        intro hc
        exact (hex s hs) (by rw [hsl, hc])
      rw [hz]
      exact cfgHours_nonneg state l d hv.2.2.1

unseal Rat.add Rat.mul Rat.sub Rat.inv in
/-- Witness for C4 on the single-line example. -/
theorem c4_witness :
    ValidState exSingle ∧
    sumDurOn (generateProductionPlan exSingle 4).planItems "L" 4 ≤ cfgHours exSingle "L" 4 :=
  ⟨by decide, c4_daily_capacity_within_availability exSingle 4 (by decide) "L" 4⟩

/-- C5: for every valid configuration and every reference id, the summed
quantity of the returned plan items for that reference never exceeds the
total demanded quantity of that reference. -/
theorem c5_no_overproduction (state : AppState) (today : ℤ)
    (hv : ValidState state) (r : String) :
    sumQtyFor (generateProductionPlan state today).planItems r ≤ demandTotal state r := by
  rcases generate_cases state today with h | h
  · rw [h]
    have hz : sumQtyFor ([] : List PlanItem) r = 0 := by simp [sumQtyFor, itemsOfLine]
    rw [hz]
    exact demandTotal_nonneg state r hv.2.2.2.2
  · rw [h]
    exact (runSchedule_spec state today hv).2 r

unseal Rat.add Rat.mul Rat.sub Rat.inv in
/-- Witness for C5 on the single-line example. -/
theorem c5_witness :
    ValidState exSingle ∧
    sumQtyFor (generateProductionPlan exSingle 4).planItems "R" ≤ demandTotal exSingle "R" :=
  ⟨by decide, c5_no_overproduction exSingle 4 (by decide) "R"⟩

/-- C9: for every valid configuration, the plan items of any single line are
chronologically ordered with each block ending no later than the next one
starts (no overlap), and every block's start hour equals the total duration
of the line's earlier blocks of the same date (back-to-back placement). -/
theorem c9_per_line_blocks_ordered (state : AppState) (today : ℤ)
    (hv : ValidState state) (l : String) :
    (itemsOfLine (generateProductionPlan state today).planItems l).Pairwise
        (fun a b => absEnd a ≤ absStart b) ∧
    startsAligned (itemsOfLine (generateProductionPlan state today).planItems l) := by
  rcases generate_cases state today with h | h
  · rw [h]
    constructor
    · simp [itemsOfLine]
    · intro pre p post hsplit
      simp only [itemsOfLine, List.filter_nil] at hsplit
      exact absurd hsplit.symm (List.append_ne_nil_of_right_ne_nil pre (by simp))
  · rw [h]
    obtain ⟨inv, -⟩ := runSchedule_spec state today hv
    exact ⟨inv.chrono l, inv.aligned l⟩

unseal Rat.add Rat.mul Rat.sub Rat.inv in
/-- Witness for C9 on the single-line example. -/
theorem c9_witness :
    ValidState exSingle ∧
    ((itemsOfLine (generateProductionPlan exSingle 4).planItems "L").Pairwise
        (fun a b => absEnd a ≤ absStart b) ∧
      startsAligned (itemsOfLine (generateProductionPlan exSingle 4).planItems "L")) :=
  ⟨by decide, c9_per_line_blocks_ordered exSingle 4 (by decide) "L"⟩

/-- C10: every setup plan item of a run is emitted while the line was last
producing a different reference (its id never equals the previously produced
reference's id), and every plan item added while processing a demand —
setup blocks included — carries that demand's reference id, i.e. the id of
the destination reference the line is switching to. -/
theorem c10_setup_items_carry_destination (state : AppState) (today : ℤ)
    (hv : ValidState state) (endDate : ℤ) (st : SchedSt) (d : Demand)
    (hinv : RunInv state st.schedules st.planItems) (hq : 0 ≤ d.quantity) :
    (∀ k p, (generateProductionPlan state today).planItems.get? k = some p →
        p.isSetup = true →
        ∃ r, lastProducedRef ((generateProductionPlan state today).planItems.take k)
              p.lineId = some r ∧ r ≠ p.referenceId) ∧
    (∃ newItems,
        (processDemand state endDate st d).1.planItems = st.planItems ++ newItems ∧
        ∀ p ∈ newItems, p.referenceId = d.referenceId) := by
  constructor
  · rcases generate_cases state today with h | h
    · rw [h]
      intro k p hk
      simp at hk
    · rw [h]
      exact ((runSchedule_spec state today hv).1).setupPrev
  · obtain ⟨-, -, -, hnew, -⟩ :=
      processDemand_spec state endDate st d _ rfl hv hinv hq
    exact hnew

unseal Rat.add Rat.mul Rat.sub Rat.inv in
/-- Witness for C10 on the fitting-setup example: the setup block placed at
position 1 of the plan switches the line away from `S`. -/
theorem c10_witness :
    ValidState exSetupFit ∧ (0 : ℚ) ≤ 5 ∧
    ∃ r, lastProducedRef ((generateProductionPlan exSetupFit 4).planItems.take 1) "L"
        = some r ∧ r ≠ "R" :=
  ⟨by decide, by decide,
    (c10_setup_items_carry_destination exSetupFit 4 (by decide) 11
        ⟨initSchedules exSetupFit 4, [], [], []⟩ ⟨"R", 5, none⟩
        (inv_init exSetupFit 4 (by decide)) (by decide)).1 1
      ⟨4, "L", "R", 0, 2, 10, true⟩ (by decide) rfl⟩

/-- C7 amended: the demand queue order the engine actually realises — a
stable sort that is a permutation of the input, ordered with deadline-bearing
demands first by ascending deadline and the no-deadline demands after them by
descending quantity, and stable on each class of equal sort keys (equal
deadlines, or equal quantities among no-deadline demands); quantity is NOT a
tiebreak between equal deadlines
(counterexample `c7_equal_deadlines_keep_insertion_order`). -/
theorem c7_sort_stable_engine_order (l : List Demand) :
    (sortDemands l).Perm l ∧
    (sortDemands l).Pairwise demandLE ∧
    ∀ k, (sortDemands l).filter (fun x => decide (demandKey x = k))
      = l.filter (fun x => decide (demandKey x = k)) := by
  obtain ⟨h1, h2⟩ := sortDemands_props l
  exact ⟨sortDemands_perm l, h1, h2⟩

/-- C8: semantics of setup insertion inside one loop iteration, given that a
line was selected whose last produced reference differs from the demand's.
(1) When the setup block is placed, it is a setup item of the demand's
reference with the looked-up duration (0 when none is configured — the
zero-length marker is still emitted), and it lands in the plan immediately
before whatever production block the iteration adds (at most one, non-setup,
same reference).  (2) When placing fails and the required duration is
positive, the iteration aborts with the setup warning and adds no plan item.
(3) When placing fails and the duration is zero, the iteration proceeds
silently to the production phase, which never emits a setup warning.
(4) A zero-duration setup placement in fact never fails here, since the
selected line's cursor is before the effective deadline. -/
theorem c8_setup_insertion_semantics (state : AppState) (d : Demand) (eff : ℤ)
    (initialQ : ℚ) (st : SchedSt) (rem : ℚ) (best : String × ℚ) (sched0 : LineSchedule)
    (tp : Throughput) (lastRef : String)
    (hfb : findBestLine d.referenceId rem st.schedules state eff st.planItems = some best)
    (hfs : st.schedules.find? (fun s => decide (s.lineId = best.1)) = some sched0)
    (hlt : ¬ sched0.currentDate ≥ eff)
    (htp : findThroughput state best.1 d.referenceId = some tp)
    (hlr : sched0.lastReferenceId = some lastRef)
    (hne : lastRef ≠ d.referenceId) :
    let setupT := getSetupTime best.1 lastRef d.referenceId state
    let setupDur := if setupT > 0 then setupT else 0
    let placed := scheduleTask state eff best.1 d.referenceId 0 setupDur true sched0
    let st1 : SchedSt :=
      ⟨updateSched st.schedules placed.2, st.planItems, st.errors, st.warnings⟩
    (∀ si, placed.1 = some si →
      si.isSetup = true ∧ si.referenceId = d.referenceId ∧ si.duration = setupDur ∧
      ∃ tail, (iterSt (demandIter state d eff initialQ st rem)).planItems
          = st.planItems ++ si :: tail ∧ tail.length ≤ 1 ∧
        ∀ p ∈ tail, p.isSetup = false ∧ p.referenceId = d.referenceId) ∧
    (placed.1 = none → setupDur > 0 →
      demandIter state d eff initialQ st rem
        = .stop (addWarn st1 (.cannotFitSetup d.referenceId setupDur
            (lineNameOf state best.1))) rem) ∧
    (placed.1 = none → ¬ setupDur > 0 →
      demandIter state d eff initialQ st rem
          = prodPhase state d eff best.1 tp st1 rem placed.2 ∧
      ∀ w ∈ (iterSt (prodPhase state d eff best.1 tp st1 rem placed.2)).warnings,
        w ∈ st.warnings ∨ ¬ IsSetupFitWarn w) ∧
    (setupDur = 0 → ∃ si, placed.1 = some si) := by
  intro setupT setupDur placed st1
  have hred : demandIter state d eff initialQ st rem
      = match placed.1 with
        | some setupItem =>
          prodPhase state d eff best.1 tp
            ⟨st1.schedules, st1.planItems ++ [setupItem], st1.errors, st1.warnings⟩
            rem placed.2
        | none =>
          if setupDur > 0 then
            .stop (addWarn st1
              (.cannotFitSetup d.referenceId setupDur (lineNameOf state best.1))) rem
          else
            prodPhase state d eff best.1 tp st1 rem placed.2 := by
    simp only [demandIter, hfb, hfs, htp, hlr, if_neg hlt, if_pos hne]
  refine ⟨?_, ?_, ?_, ?_⟩
  · intro si hsi
    have hpair : scheduleTask state eff best.1 d.referenceId 0 setupDur true sched0
        = (some si, placed.2) := by
      rw [← hsi]
    obtain ⟨-, hrf, -, hdur, hsu⟩ :=
      scheduleTask_item state eff best.1 d.referenceId 0 setupDur true sched0 si
        placed.2 hpair
    refine ⟨hsu, hrf, hdur, ?_⟩
    rw [hred]
    simp only [hsi]
    obtain ⟨tail, h1, h2, h3⟩ := prodPhase_items state d eff best.1 tp
      ⟨st1.schedules, st1.planItems ++ [si], st1.errors, st1.warnings⟩ rem placed.2
    refine ⟨tail, ?_, h2, h3⟩
    rw [h1]
    show (st.planItems ++ [si]) ++ tail = st.planItems ++ si :: tail
    simp
  · intro h0 hpos
    rw [hred]
    simp only [h0]
    rw [if_pos hpos]
  · intro h0 hneg
    rw [hred]
    simp only [h0]
    rw [if_neg hneg]
    exact ⟨rfl, prodPhase_warns state d eff best.1 tp st1 rem placed.2⟩
  · intro h0
    have hda : ¬ (setupDur > getAvailableHours sched0 best.1 state) := by
      rw [h0]
      exact not_lt.mpr (getAvailableHours_nonneg sched0 best.1 state)
    refine ⟨⟨sched0.currentDate, best.1, d.referenceId, 0, setupDur,
      sched0.currentHour, true⟩, ?_⟩
    show (scheduleTask state eff best.1 d.referenceId 0 setupDur true sched0).1 = _
    unfold scheduleTask
    simp only [scheduleTaskGo]
    rw [if_neg hlt, if_neg hda]

unseal Rat.add Rat.mul Rat.sub Rat.inv in
/-- Witness for C8 on the fitting-setup example: the 2 h setup block towards
`R` is placed at hour 10 of the Monday, immediately before the `R`
production block. -/
theorem c8_witness :
    (findBestLine "R" 5 exFitSt.schedules exSetupFit 11 exFitSt.planItems
        = some ("L", 113/2)) ∧
    ((⟨4, "L", "R", 0, 2, 10, true⟩ : PlanItem).isSetup = true ∧
      (⟨4, "L", "R", 0, 2, 10, true⟩ : PlanItem).referenceId = "R" ∧
      (⟨4, "L", "R", 0, 2, 10, true⟩ : PlanItem).duration
        = (if getSetupTime "L" "S" "R" exSetupFit > 0
            then getSetupTime "L" "S" "R" exSetupFit else 0) ∧
      ∃ tail, (iterSt (demandIter exSetupFit ⟨"R", 5, none⟩ 11 5 exFitSt 5)).planItems
          = exFitSt.planItems ++ (⟨4, "L", "R", 0, 2, 10, true⟩ : PlanItem) :: tail ∧
        tail.length ≤ 1 ∧
        ∀ p ∈ tail, p.isSetup = false ∧ p.referenceId = "R") :=
  ⟨by decide,
    (c8_setup_insertion_semantics exSetupFit ⟨"R", 5, none⟩ 11 5 exFitSt 5
        ("L", 113/2) ⟨"L", 4, 10, some "S", [(4, 10)]⟩ ⟨"L", "R", 1⟩ "S"
        (by decide) (by decide) (by decide) (by decide) (by decide) (by decide)).1
      ⟨4, "L", "R", 0, 2, 10, true⟩ (by decide)⟩

/-- A fold that only ever keeps its accumulator or proposes the scanned
schedule's line (with a throughput entry) yields, when it returns a line,
one of the scanned schedules' lines. -/
theorem foldl_best_mem (state : AppState) (referenceId : String)
    (f : Option (String × ℚ) → LineSchedule → Option (String × ℚ))
    (hf : ∀ acc a, f acc a = acc ∨
      ((findThroughput state a.lineId referenceId).isSome ∧
        ∃ c, f acc a = some (a.lineId, c))) :
    ∀ (M : List LineSchedule) (acc : Option (String × ℚ)) (b : String × ℚ),
      M.foldl f acc = some b →
      (∃ a ∈ M, a.lineId = b.1 ∧ (findThroughput state b.1 referenceId).isSome)
        ∨ acc = some b := by
  intro M
  induction M with
  | nil =>
    intro acc b h
    exact Or.inr h
  | cons a M' ih =>
    intro acc b h
    rw [List.foldl_cons] at h
    rcases ih (f acc a) b h with hmem | hacc
    · obtain ⟨x, hx, h1, h2⟩ := hmem
      exact Or.inl ⟨x, List.mem_cons_of_mem a hx, h1, h2⟩
    · rcases hf acc a with he | ⟨hts, c, hc⟩
      · rw [he] at hacc
        exact Or.inr hacc
      · rw [hc] at hacc
        have hb := Option.some.inj hacc
        subst hb
        exact Or.inl ⟨a, List.mem_cons_self a M', rfl, hts⟩

/-- A line returned by `findBestLine` is one of the scanned schedules' lines
and holds a throughput entry for the reference (so the source's non-null
assertions after the call cannot fail). -/
theorem findBestLine_mem (referenceId : String) (quantity : ℚ) (L : List LineSchedule)
    (state : AppState) (endDate : ℤ) (planItems : List PlanItem) (best : String × ℚ)
    (heq : findBestLine referenceId quantity L state endDate planItems = some best) :
    (∃ sched ∈ L, sched.lineId = best.1) ∧
      (findThroughput state best.1 referenceId).isSome := by
  simp only [findBestLine] at heq
  have key : (∃ a ∈ L, a.lineId = best.1 ∧ (findThroughput state best.1 referenceId).isSome)
      ∨ (none : Option (String × ℚ)) = some best := by
    refine foldl_best_mem state referenceId _ ?_ L none best heq
    intro acc a
    dsimp only
    by_cases h1 : a.currentDate ≥ endDate
    · rw [if_pos h1]
      exact Or.inl rfl
    · rw [if_neg h1]
      rcases htp : findThroughput state a.lineId referenceId with _ | tp
      all_goals simp only [htp]
      · exact Or.inl trivial
      · try dsimp only
        rcases acc with _ | b
        · try dsimp only
          exact Or.inr ⟨rfl, _, rfl⟩
        · try dsimp only
          split_ifs <;>
            first
              | exact Or.inl rfl
              | exact Or.inl trivial
              | exact Or.inr ⟨rfl, _, rfl⟩
  rcases key with ⟨a, ha, h1, h2⟩ | hbad
  · exact ⟨⟨a, ha, h1⟩, h2⟩
  · cases hbad

/-- Whenever the production phase breaks the loop, it pushes exactly one
warning. -/
theorem prodPhase_stop_warn (state : AppState) (d : Demand) (eff : ℤ) (best1 : String)
    (tp : Throughput) (stP : SchedSt) (rem : ℚ) (sched : LineSchedule)
    (st' : SchedSt) (rem' : ℚ)
    (heq : prodPhase state d eff best1 tp stP rem sched = .stop st' rem') :
    ∃ w, st'.warnings = stP.warnings ++ [w] := by
  simp only [prodPhase] at heq
  by_cases hav : getAvailableHours sched best1 state ≤ 0
  · rw [if_pos hav] at heq
    by_cases hcd : (advanceDay sched).currentDate ≥ eff
    · rw [if_pos hcd] at heq
      cases heq
      exact ⟨_, rfl⟩
    · rw [if_neg hcd] at heq
      exact IterRes.noConfusion heq
  · rw [if_neg hav] at heq
    rcases hplaced : scheduleTask state eff best1 d.referenceId
        (min (rem / tp.rate) (getAvailableHours sched best1 state) * tp.rate)
        (min (rem / tp.rate) (getAvailableHours sched best1 state)) false sched
      with ⟨res, s2⟩
    simp only [hplaced] at heq
    cases res with
    | none =>
      cases heq
      exact ⟨_, rfl⟩
    | some item =>
      dsimp only at heq
      by_cases hq0 : min (rem / tp.rate) (getAvailableHours sched best1 state) * tp.rate = 0
      · rw [if_pos hq0] at heq
        by_cases hcd : (advanceDay ⟨s2.lineId, s2.currentDate, s2.currentHour,
            some d.referenceId, s2.dailyHoursUsed⟩).currentDate ≥ eff
        · rw [if_pos hcd] at heq
          cases heq
          exact ⟨_, rfl⟩
        · rw [if_neg hcd] at heq
          exact IterRes.noConfusion heq
      · rw [if_neg hq0] at heq
        exact IterRes.noConfusion heq

/-- Whenever one loop iteration breaks the loop, it records a diagnostic: an
error (with no warning) only in the no-line-found case with the full quantity
still remaining, and exactly one warning in every other case. -/
theorem demandIter_stop_diag (state : AppState) (d : Demand) (eff : ℤ) (initialQ : ℚ)
    (st : SchedSt) (rem : ℚ) (st' : SchedSt) (rem' : ℚ)
    (heq : demandIter state d eff initialQ st rem = .stop st' rem') :
    ((∃ e, st'.errors = st.errors ++ [e]) ∧ st'.warnings = st.warnings ∧ rem = initialQ)
    ∨ ((∃ w, st'.warnings = st.warnings ++ [w]) ∧ st'.errors = st.errors) := by
  simp only [demandIter] at heq
  rcases hfb : findBestLine d.referenceId rem st.schedules state eff st.planItems with _ | best
  all_goals simp only [hfb] at heq
  · by_cases hri : rem = initialQ
    · rw [if_pos hri] at heq
      rcases hdl : d.deadline with _ | dl
      all_goals simp only [hdl] at heq
      all_goals cases heq
      all_goals exact Or.inl ⟨⟨_, rfl⟩, rfl, hri⟩
    · rw [if_neg hri] at heq
      rcases hdl : d.deadline with _ | dl
      all_goals simp only [hdl] at heq
      all_goals cases heq
      all_goals exact Or.inr ⟨⟨_, rfl⟩, rfl⟩
  · obtain ⟨hmemA, htsA⟩ := findBestLine_mem d.referenceId rem st.schedules state eff
      st.planItems best hfb
    rcases hfind : st.schedules.find? (fun s => decide (s.lineId = best.1)) with _ | sched0
    all_goals simp only [hfind] at heq
    · obtain ⟨a, ha, hal⟩ := hmemA
      have hcontra := List.find?_eq_none.mp hfind a ha
      simp [hal] at hcontra
    · try dsimp only at heq
      by_cases hcd : sched0.currentDate ≥ eff
      · rw [if_pos hcd] at heq
        rcases hdl : d.deadline with _ | dl
        all_goals simp only [fitWarn, hdl] at heq
        all_goals cases heq
        all_goals exact Or.inr ⟨⟨_, rfl⟩, rfl⟩
      · rw [if_neg hcd] at heq
        rcases htp : findThroughput state best.1 d.referenceId with _ | tp
        all_goals simp only [htp] at heq
        · rw [htp] at htsA
          simp at htsA
        · try dsimp only at heq
          rcases hlr : sched0.lastReferenceId with _ | lastRef
          all_goals simp only [hlr] at heq
          · obtain ⟨w, hw⟩ :=
              prodPhase_stop_warn state d eff best.1 tp st rem sched0 st' rem' heq
            have he := prodPhase_errors state d eff best.1 tp st rem sched0
            rw [heq] at he
            exact Or.inr ⟨⟨w, hw⟩, he⟩
          · try dsimp only at heq
            by_cases hne : lastRef ≠ d.referenceId
            · rw [if_pos hne] at heq
              rcases hset : scheduleTask state eff best.1 d.referenceId 0
                  (if getSetupTime best.1 lastRef d.referenceId state > 0
                    then getSetupTime best.1 lastRef d.referenceId state else 0)
                  true sched0 with ⟨sres, s2⟩
              simp only [hset] at heq
              cases sres with
              | some setupItem =>
                dsimp only at heq
                obtain ⟨w, hw⟩ :=
                  prodPhase_stop_warn state d eff best.1 tp _ rem s2 st' rem' heq
                have he := prodPhase_errors state d eff best.1 tp
                  ⟨updateSched st.schedules s2, st.planItems ++ [setupItem],
                    st.errors, st.warnings⟩ rem s2
                rw [heq] at he
                exact Or.inr ⟨⟨w, hw⟩, he⟩
              | none =>
                dsimp only at heq
                by_cases hsd : (if getSetupTime best.1 lastRef d.referenceId state > 0
                    then getSetupTime best.1 lastRef d.referenceId state else 0) > 0
                · rw [if_pos hsd] at heq
                  cases heq
                  exact Or.inr ⟨⟨_, rfl⟩, rfl⟩
                · rw [if_neg hsd] at heq
                  obtain ⟨w, hw⟩ :=
                    prodPhase_stop_warn state d eff best.1 tp _ rem s2 st' rem' heq
                  have he := prodPhase_errors state d eff best.1 tp
                    ⟨updateSched st.schedules s2, st.planItems,
                      st.errors, st.warnings⟩ rem s2
                  rw [heq] at he
                  exact Or.inr ⟨⟨w, hw⟩, he⟩
            · rw [if_neg hne] at heq
              obtain ⟨w, hw⟩ :=
                prodPhase_stop_warn state d eff best.1 tp st rem sched0 st' rem' heq
              have he := prodPhase_errors state d eff best.1 tp st rem sched0
              rw [heq] at he
              exact Or.inr ⟨⟨w, hw⟩, he⟩

theorem updateSched_id (L : List LineSchedule) (s' : LineSchedule)
    (h : ∀ x ∈ L, x.lineId ≠ s'.lineId) : updateSched L s' = L := by
  induction L with
  | nil => rfl
  | cons a L' ih =>
    simp only [updateSched, List.map_cons]
    rw [if_neg (h a (by simp))]
    have := ih (fun x hx => h x (by simp [hx]))
    simp only [updateSched] at this
    rw [this]

/-- Writing an updated schedule back replaces exactly the one schedule with
that line id, so any summed statistic changes by exactly the difference on
that schedule. -/
theorem updateSched_sum (f : LineSchedule → ℕ) :
    ∀ (L : List LineSchedule) (sched s' : LineSchedule),
    (L.map (·.lineId)).Nodup → sched ∈ L → s'.lineId = sched.lineId →
    ((updateSched L s').map f).sum + f sched = (L.map f).sum + f s' := by
  intro L
  induction L with
  | nil =>
    intro sched s' _ hmem _
    cases hmem
  | cons a L' ih =>
    intro sched s' hnd hmem hid
    simp only [List.map_cons, List.nodup_cons] at hnd
    obtain ⟨hna, hnd'⟩ := hnd
    by_cases ha : a.lineId = s'.lineId
    · have hsa : sched = a := by
        rcases List.mem_cons.mp hmem with h | h
        · exact h
        · exfalso
          apply hna
          rw [ha, hid]
          exact List.mem_map_of_mem _ h
      have hrest : updateSched L' s' = L' := by
        apply updateSched_id
        intro x hx hxe
        apply hna
        rw [ha, ← hxe]
        exact List.mem_map_of_mem _ hx
      simp only [updateSched, List.map_cons]
      rw [if_pos ha]
      have hrest' : List.map (fun s => if s.lineId = s'.lineId then s' else s) L' = L' := hrest
      rw [hrest', hsa]
      simp only [List.map_cons, List.sum_cons]
      omega
    · have hsa : sched ∈ L' := by
        rcases List.mem_cons.mp hmem with h | h
        · exfalso
          apply ha
          rw [hid, h]
        · exact h
      simp only [updateSched, List.map_cons]
      rw [if_neg ha]
      have hstep := ih sched s' hnd' hsa hid
      simp only [updateSched] at hstep
      simp only [List.map_cons, List.sum_cons]
      omega

/-- When the block fits into the cursor day before the horizon, the calendar
packer places it exactly there, consuming its duration. -/
theorem scheduleTaskGo_place_eq (state : AppState) (eff : ℤ) (lineId referenceId : String)
    (quantity duration : ℚ) (isSetup : Bool) (fuel : ℕ) (s : LineSchedule)
    (hlt : ¬ s.currentDate ≥ eff)
    (hfit : ¬ duration > getAvailableHours s lineId state) :
    scheduleTaskGo state eff lineId referenceId quantity duration isSetup (fuel + 1) s
      = (some ⟨s.currentDate, lineId, referenceId, quantity, duration,
            s.currentHour, isSetup⟩,
         ⟨s.lineId, s.currentDate, s.currentHour + duration, s.lastReferenceId,
          setUsed s.dailyHoursUsed s.currentDate
            (lookupUsed s.dailyHoursUsed s.currentDate + duration)⟩) := by
  simp only [scheduleTaskGo]
  rw [if_neg hlt, if_neg hfit]

/-- `scheduleTaskGo_place_eq` through the `scheduleTask` wrapper. -/
theorem scheduleTask_place_eq (state : AppState) (eff : ℤ) (lineId referenceId : String)
    (quantity duration : ℚ) (isSetup : Bool) (s : LineSchedule)
    (hlt : ¬ s.currentDate ≥ eff)
    (hfit : ¬ duration > getAvailableHours s lineId state) :
    scheduleTask state eff lineId referenceId quantity duration isSetup s
      = (some ⟨s.currentDate, lineId, referenceId, quantity, duration,
            s.currentHour, isSetup⟩,
         ⟨s.lineId, s.currentDate, s.currentHour + duration, s.lastReferenceId,
          setUsed s.dailyHoursUsed s.currentDate
            (lookupUsed s.dailyHoursUsed s.currentDate + duration)⟩) := by
  unfold scheduleTask
  exact scheduleTaskGo_place_eq state eff lineId referenceId quantity duration isSetup
    ((eff - s.currentDate).toNat) s hlt hfit

/-- A placement attempt with the cursor already at or past the horizon fails
immediately without touching the schedule. -/
theorem scheduleTask_none_of_ge (state : AppState) (eff : ℤ) (lineId referenceId : String)
    (quantity duration : ℚ) (isSetup : Bool) (s : LineSchedule)
    (hge : s.currentDate ≥ eff) :
    scheduleTask state eff lineId referenceId quantity duration isSetup s = (none, s) := by
  unfold scheduleTask
  simp only [scheduleTaskGo]
  rw [if_pos hge]

theorem spareDay_le_one (state : AppState) (s : LineSchedule) : spareDay state s ≤ 1 := by
  unfold spareDay
  split_ifs <;> omega

/-- Advancing a line's cursor one day before the effective deadline strictly
decreases the line's loop measure. -/
theorem lineMeasure_advance_lt (state : AppState) (eff : ℤ) (s : LineSchedule)
    (h : (advanceDay s).currentDate < eff) :
    lineMeasure state eff (advanceDay s) < lineMeasure state eff s := by
  have h1 : s.currentDate + 1 < eff := h
  have h2 := spareDay_le_one state (advanceDay s)
  unfold lineMeasure
  show 2 * (eff - (s.currentDate + 1)).toNat + spareDay state (advanceDay s)
      < 2 * (eff - s.currentDate).toNat + spareDay state s
  omega

/-- A successful placement never increases the line's loop measure. -/
theorem scheduleTask_measure_mono (state : AppState) (eff : ℤ) (referenceId : String)
    (quantity duration : ℚ) (isSetup : Bool) (s : LineSchedule) (p : PlanItem)
    (s' : LineSchedule)
    (heq : scheduleTask state eff s.lineId referenceId quantity duration isSetup s
      = (some p, s'))
    (hdur : 0 ≤ duration)
    (hfut : ∀ dd, s.currentDate < dd → lookupUsed s.dailyHoursUsed dd = 0)
    (hcur : s.currentHour = lookupUsed s.dailyHoursUsed s.currentDate) :
    lineMeasure state eff s' ≤ lineMeasure state eff s := by
  obtain ⟨e1, e2, e3, e4, e5, e6⟩ := scheduleTask_spec state eff s.lineId referenceId
    quantity duration isSetup s (some p) s' heq hdur hfut hcur
  rcases e6 with ⟨hbad, _⟩ | ⟨q, hq, c1, c2, c3, c4, c5, c6, c7, c8, c9, c10, c11, c12⟩
  · cases hbad
  · obtain rfl : q = p := (Option.some.inj hq).symm
    rcases eq_or_lt_of_le e3 with hsame | hlt
    · have hsp : spareDay state s' ≤ spareDay state s := by
        unfold spareDay
        by_cases h1 : 0 < getAvailableHours s' s'.lineId state
        · rw [if_pos h1]
          have h2 : 0 < getAvailableHours s s.lineId state := by
            unfold getAvailableHours at h1 ⊢
            rw [e1, ← hsame] at h1
            rcases hfa : findAvail state s.lineId (euDow s.currentDate) with _ | a
            all_goals simp only [hfa] at h1 ⊢
            · exact h1
            · have hl : lookupUsed s'.dailyHoursUsed s.currentDate
                  = lookupUsed s.dailyHoursUsed s.currentDate + duration := by
                have hc := c11
                rw [c6, ← hsame] at hc
                exact hc
            
              rw [hl] at h1
              have hpos : 0 < a.hoursAvailable
                  - lookupUsed s.dailyHoursUsed s.currentDate := by
                by_contra hc
                push_neg at hc
                have hle : a.hoursAvailable
                    - (lookupUsed s.dailyHoursUsed s.currentDate + duration) ≤ 0 := by
                  linarith
                rw [max_eq_left hle] at h1
                exact absurd h1 (lt_irrefl 0)
              calc (0:ℚ) < a.hoursAvailable - lookupUsed s.dailyHoursUsed s.currentDate :=
                    hpos
                _ ≤ max 0 (a.hoursAvailable - lookupUsed s.dailyHoursUsed s.currentDate) :=
                    le_max_right _ _
          rw [if_pos h2]
        · rw [if_neg h1]
          split_ifs <;> omega
      unfold lineMeasure
      rw [← hsame]
      omega
    · have hde : s'.currentDate < eff := by rw [← c6]; exact c7
      have h2 := spareDay_le_one state s'
      unfold lineMeasure
      omega

/-- A continuing production-phase step that leaves quantity outstanding
strictly decreases the run state's loop measure: it either advances the
chosen line's day cursor, or fills up the cursor day's remaining hours. -/
theorem prodPhase_measure (state : AppState) (d : Demand) (eff : ℤ) (best1 : String)
    (tp : Throughput) (stP : SchedSt) (rem : ℚ) (sched : LineSchedule)
    (st' : SchedSt) (rem' : ℚ)
    (hv : ValidState state)
    (hnodup : (stP.schedules.map (·.lineId)).Nodup)
    (hmem : sched ∈ stP.schedules)
    (hsl : sched.lineId = best1)
    (htp : findThroughput state best1 d.referenceId = some tp)
    (hrem : 0 < rem)
    (heq : prodPhase state d eff best1 tp stP rem sched = .cont st' rem')
    (hne0 : rem' ≠ 0) :
    stMeasure state eff st' < stMeasure state eff stP := by
  subst hsl
  have hrate : 0 < tp.rate := hv.2.1 tp (List.mem_of_find?_eq_some htp)
  simp only [prodPhase] at heq
  by_cases hav : getAvailableHours sched sched.lineId state ≤ 0
  · rw [if_pos hav] at heq
    by_cases hcd : (advanceDay sched).currentDate ≥ eff
    · rw [if_pos hcd] at heq
      exact IterRes.noConfusion heq
    · rw [if_neg hcd] at heq
      cases heq
      have hkey := updateSched_sum (lineMeasure state eff) stP.schedules sched
        (advanceDay sched) hnodup hmem rfl
      have hlt := lineMeasure_advance_lt state eff sched (not_le.mp hcd)
      simp only [stMeasure]
      omega
  · rw [if_neg hav] at heq
    push_neg at hav
    rcases hplaced : scheduleTask state eff sched.lineId d.referenceId
        (min (rem / tp.rate) (getAvailableHours sched sched.lineId state) * tp.rate)
        (min (rem / tp.rate) (getAvailableHours sched sched.lineId state)) false sched
      with ⟨res, s2⟩
    simp only [hplaced] at heq
    cases res with
    | none => exact IterRes.noConfusion heq
    | some item =>
      dsimp only at heq
      have hmin0 : (0:ℚ)
          < min (rem / tp.rate) (getAvailableHours sched sched.lineId state) :=
        lt_min (div_pos hrem hrate) hav
      have hqty_pos : (0:ℚ)
          < min (rem / tp.rate) (getAvailableHours sched sched.lineId state) * tp.rate :=
        mul_pos hmin0 hrate
      rw [if_neg (ne_of_gt hqty_pos)] at heq
      cases heq
      by_cases hge : sched.currentDate ≥ eff
      · rw [scheduleTask_none_of_ge state eff sched.lineId d.referenceId _ _ false sched hge]
          at hplaced
        exact absurd (congrArg Prod.fst hplaced) (by simp)
      · have hfit : ¬ (min (rem / tp.rate) (getAvailableHours sched sched.lineId state)
            > getAvailableHours sched sched.lineId state) :=
          not_lt.mpr (min_le_right _ _)
        rw [scheduleTask_place_eq state eff sched.lineId d.referenceId
            (min (rem / tp.rate) (getAvailableHours sched sched.lineId state) * tp.rate)
            (min (rem / tp.rate) (getAvailableHours sched sched.lineId state))
            false sched hge hfit] at hplaced
        obtain ⟨hit, hs2⟩ := Prod.mk.inj hplaced
        subst hs2
        try dsimp only
        have hr0 : tp.rate ≠ 0 := ne_of_gt hrate
        have hminA : min (rem / tp.rate) (getAvailableHours sched sched.lineId state)
            = getAvailableHours sched sched.lineId state := by
          rcases min_choice (rem / tp.rate) (getAvailableHours sched sched.lineId state)
            with hc | hc
          · exfalso
            apply hne0
            rw [hc, div_mul_cancel₀ rem hr0]
            ring
          · exact hc
        obtain ⟨a, hfa⟩ : ∃ a, findAvail state sched.lineId (euDow sched.currentDate)
            = some a := by
          have h0 := hav
          unfold getAvailableHours at h0
          rcases hfa : findAvail state sched.lineId (euDow sched.currentDate) with _ | a
          · simp only [hfa] at h0
            exact absurd h0 (lt_irrefl 0)
          · exact ⟨a, rfl⟩
        have hx : 0 < a.hoursAvailable
            - lookupUsed sched.dailyHoursUsed sched.currentDate := by
          have h0 := hav
          unfold getAvailableHours at h0
          simp only [hfa] at h0
          rcases lt_max_iff.mp h0 with h | h
          · exact absurd h (lt_irrefl 0)
          · exact h
        have havEq : getAvailableHours sched sched.lineId state
            = a.hoursAvailable - lookupUsed sched.dailyHoursUsed sched.currentDate := by
          unfold getAvailableHours
          simp only [hfa]
          exact max_eq_right (le_of_lt hx)
        rw [hminA, havEq]
        have hkey := updateSched_sum (lineMeasure state eff) stP.schedules sched
          (⟨sched.lineId, sched.currentDate,
            sched.currentHour
              + (a.hoursAvailable - lookupUsed sched.dailyHoursUsed sched.currentDate),
            some d.referenceId,
            setUsed sched.dailyHoursUsed sched.currentDate
              (lookupUsed sched.dailyHoursUsed sched.currentDate
                + (a.hoursAvailable
                  - lookupUsed sched.dailyHoursUsed sched.currentDate))⟩ : LineSchedule)
          hnodup hmem rfl
        have hlm : lineMeasure state eff
            (⟨sched.lineId, sched.currentDate,
              sched.currentHour
                + (a.hoursAvailable - lookupUsed sched.dailyHoursUsed sched.currentDate),
              some d.referenceId,
              setUsed sched.dailyHoursUsed sched.currentDate
                (lookupUsed sched.dailyHoursUsed sched.currentDate
                  + (a.hoursAvailable
                    - lookupUsed sched.dailyHoursUsed sched.currentDate))⟩ : LineSchedule)
            < lineMeasure state eff sched := by
          have hspN : spareDay state
              (⟨sched.lineId, sched.currentDate,
                sched.currentHour
                  + (a.hoursAvailable - lookupUsed sched.dailyHoursUsed sched.currentDate),
                some d.referenceId,
                setUsed sched.dailyHoursUsed sched.currentDate
                  (lookupUsed sched.dailyHoursUsed sched.currentDate
                    + (a.hoursAvailable
                      - lookupUsed sched.dailyHoursUsed sched.currentDate))⟩
                : LineSchedule) = 0 := by
            unfold spareDay getAvailableHours
            simp only [hfa]
            rw [lookupUsed_setUsed, if_pos rfl]
            have hz : a.hoursAvailable
                - (lookupUsed sched.dailyHoursUsed sched.currentDate
                  + (a.hoursAvailable
                    - lookupUsed sched.dailyHoursUsed sched.currentDate)) = 0 := by
              ring
            rw [hz]
            simp
          have hspO : spareDay state sched = 1 := by
            unfold spareDay
            rw [if_pos hav]
          unfold lineMeasure
          rw [hspN, hspO]
          show 2 * (eff - sched.currentDate).toNat + 0
              < 2 * (eff - sched.currentDate).toNat + 1
          omega
        simp only [stMeasure]
        apply Nat.lt_of_add_lt_add_right
        rw [hkey]
        exact Nat.add_lt_add_left hlm _

/-- A continuing loop iteration that leaves quantity outstanding strictly
decreases the run state's loop measure, so the loop's fuel bounds the real
number of iterations. -/
theorem demandIter_measure (state : AppState) (d : Demand) (eff : ℤ) (initialQ : ℚ)
    (st : SchedSt) (rem : ℚ) (st' : SchedSt) (rem' : ℚ)
    (hv : ValidState state)
    (hinv : RunInv state st.schedules st.planItems)
    (hrem : 0 < rem)
    (heq : demandIter state d eff initialQ st rem = .cont st' rem')
    (hne0 : rem' ≠ 0) :
    stMeasure state eff st' < stMeasure state eff st := by
  have hnodup : (st.schedules.map (·.lineId)).Nodup := by
    rw [hinv.ids]
    exact hv.1
  simp only [demandIter] at heq
  rcases hfb : findBestLine d.referenceId rem st.schedules state eff st.planItems with _ | best
  all_goals simp only [hfb] at heq
  · by_cases hri : rem = initialQ
    · rw [if_pos hri] at heq
      rcases hdl : d.deadline with _ | dl
      all_goals simp only [hdl] at heq
      all_goals exact IterRes.noConfusion heq
    · rw [if_neg hri] at heq
      rcases hdl : d.deadline with _ | dl
      all_goals simp only [hdl] at heq
      all_goals exact IterRes.noConfusion heq
  · rcases hfind : st.schedules.find? (fun s => decide (s.lineId = best.1)) with _ | sched0
    all_goals simp only [hfind] at heq
    · exact IterRes.noConfusion heq
    · obtain ⟨hmem0, hsl0⟩ := find?_sched_facts hfind
      try dsimp only at heq
      by_cases hcd : sched0.currentDate ≥ eff
      · rw [if_pos hcd] at heq
        exact IterRes.noConfusion heq
      · rw [if_neg hcd] at heq
        rcases htp : findThroughput state best.1 d.referenceId with _ | tp
        all_goals simp only [htp] at heq
        · exact IterRes.noConfusion heq
        · try dsimp only at heq
          rcases hlr : sched0.lastReferenceId with _ | lastRef
          all_goals simp only [hlr] at heq
          · exact prodPhase_measure state d eff best.1 tp st rem sched0 st' rem'
              hv hnodup hmem0 hsl0 htp hrem heq hne0
          · try dsimp only at heq
            by_cases hne : lastRef ≠ d.referenceId
            · rw [if_pos hne] at heq
              set sd : ℚ := if getSetupTime best.1 lastRef d.referenceId state > 0 then
                getSetupTime best.1 lastRef d.referenceId state else 0 with hsd_def
              have hsd0 : 0 ≤ sd := by
                rw [hsd_def]
                split_ifs with h
                · exact le_of_lt h
                · exact le_refl 0
              rcases hset : scheduleTask state eff best.1 d.referenceId 0 sd true sched0
                with ⟨sres, s2⟩
              simp only [hset] at heq
              cases sres with
              | some setupItem =>
                dsimp only at heq
                have hset' : scheduleTask state eff sched0.lineId d.referenceId 0 sd
                    true sched0 = (some setupItem, s2) := by
                  rw [hsl0]
                  exact hset
                have hmono := scheduleTask_measure_mono state eff d.referenceId 0 sd true
                  sched0 setupItem s2 hset' hsd0 (hinv.future sched0 hmem0)
                  (hinv.curHour sched0 hmem0)
                obtain ⟨e1, e2, e3, e4, e5, e6⟩ := scheduleTask_spec state eff sched0.lineId
                  d.referenceId 0 sd true sched0 (some setupItem) s2 hset' hsd0
                  (hinv.future sched0 hmem0) (hinv.curHour sched0 hmem0)
                have hkey := updateSched_sum (lineMeasure state eff) st.schedules sched0 s2
                  hnodup hmem0 e1
                have hmemN : s2 ∈ updateSched st.schedules s2 :=
                  self_mem_updateSched ⟨sched0, hmem0, e1.symm⟩
                have hnodup2 : ((updateSched st.schedules s2).map (·.lineId)).Nodup := by
                  rw [updateSched_map_lineId]
                  exact hnodup
                have hpp := prodPhase_measure state d eff best.1 tp
                  ⟨updateSched st.schedules s2, st.planItems ++ [setupItem],
                    st.errors, st.warnings⟩ rem s2 st' rem'
                  hv hnodup2 hmemN (e1.trans hsl0) htp hrem heq hne0
                have hqle : stMeasure state eff
                    ⟨updateSched st.schedules s2, st.planItems ++ [setupItem],
                      st.errors, st.warnings⟩ ≤ stMeasure state eff st := by
                  simp only [stMeasure]
                  omega
                exact lt_of_lt_of_le hpp hqle
              | none =>
                dsimp only at heq
                by_cases hsd : sd > 0
                · rw [if_pos hsd] at heq
                  exact IterRes.noConfusion heq
                · rw [if_neg hsd] at heq
                  exfalso
                  have hz : sd = 0 := le_antisymm (not_lt.mp hsd) hsd0
                  have hfit : ¬ (sd > getAvailableHours sched0 best.1 state) := by
                    rw [hz]
                    exact not_lt.mpr (getAvailableHours_nonneg sched0 best.1 state)
                  rw [scheduleTask_place_eq state eff best.1 d.referenceId 0 sd true sched0
                    hcd hfit] at hset
                  exact absurd (congrArg Prod.fst hset) (by simp)
            · rw [if_neg hne] at heq
              exact prodPhase_measure state d eff best.1 tp st rem sched0 st' rem'
                hv hnodup hmem0 hsl0 htp hrem heq hne0

theorem demandLoop_zero (state : AppState) (d : Demand) (eff : ℤ) (initialQ : ℚ)
    (fuel : ℕ) (st : SchedSt) :
    demandLoop state d eff initialQ fuel st 0 = (st, 0) := by
  cases fuel with
  | zero => rfl
  | succ n => simp [demandLoop]

/-- With fuel above the run state's loop measure, the per-demand loop ends
either fully scheduled, or having pushed exactly one error (with the full
quantity still remaining and no warning), or having pushed exactly one
warning (and no error): the fuel never runs out before a real loop exit. -/
theorem demandLoop_diag (state : AppState) (d : Demand) (eff : ℤ) (initialQ : ℚ)
    (hv : ValidState state) :
    ∀ (fuel : ℕ) (st : SchedSt) (rem : ℚ),
    RunInv state st.schedules st.planItems →
    0 ≤ rem →
    stMeasure state eff st < fuel →
    ((demandLoop state d eff initialQ fuel st rem).2 = 0 ∨
      ((∃ e, (demandLoop state d eff initialQ fuel st rem).1.errors = st.errors ++ [e]) ∧
        (demandLoop state d eff initialQ fuel st rem).1.warnings = st.warnings ∧
        (demandLoop state d eff initialQ fuel st rem).2 = initialQ) ∨
      ((∃ w, (demandLoop state d eff initialQ fuel st rem).1.warnings
            = st.warnings ++ [w]) ∧
        (demandLoop state d eff initialQ fuel st rem).1.errors = st.errors)) := by
  intro fuel
  induction fuel with
  | zero =>
    intro st rem _ _ hm
    exact absurd hm (Nat.not_lt_zero _)
  | succ n ih =>
    intro st rem hinv hrem hm
    by_cases hr : rem > 0
    · rcases hit : demandIter state d eff initialQ st rem with ⟨st2, rem2⟩ | ⟨st2, rem2⟩
      · -- continuing iteration
        have hred : demandLoop state d eff initialQ (n + 1) st rem
            = demandLoop state d eff initialQ n st2 rem2 := by
          simp only [demandLoop]
          rw [if_pos hr, hit]
        have hspec := (demandIter_spec state d eff initialQ st rem hv hinv hr).1
        rw [hit] at hspec
        obtain ⟨i1, i2, -, -, -, -, -, -, i9⟩ := hspec
        have hinv2 : RunInv state st2.schedules st2.planItems := i1
        have hrem2 : (0 : ℚ) ≤ rem2 := i2
        obtain ⟨he9, hw9⟩ := i9 rfl
        have he9' : st2.errors = st.errors := he9
        have hw9' : st2.warnings = st.warnings := hw9
        by_cases hz : rem2 = 0
        · subst hz
          rw [hred, demandLoop_zero]
          exact Or.inl rfl
        · have hm2 : stMeasure state eff st2 < n := by
            have := demandIter_measure state d eff initialQ st rem st2 rem2
              hv hinv hr hit hz
            omega
          rcases ih st2 rem2 hinv2 hrem2 hm2 with h0 | ⟨⟨e, he⟩, hw, hq⟩ | ⟨⟨w, hw⟩, he⟩
          · rw [hred]
            exact Or.inl h0
          · rw [hred]
            refine Or.inr (Or.inl ⟨⟨e, ?_⟩, ?_, hq⟩)
            · rw [he, he9']
            · rw [hw, hw9']
          · rw [hred]
            refine Or.inr (Or.inr ⟨⟨w, ?_⟩, ?_⟩)
            · rw [hw, hw9']
            · rw [he, he9']
      · -- breaking iteration
        have hred : demandLoop state d eff initialQ (n + 1) st rem = (st2, rem2) := by
          simp only [demandLoop]
          rw [if_pos hr, hit]
        have hspec := (demandIter_spec state d eff initialQ st rem hv hinv hr).1
        rw [hit] at hspec
        obtain ⟨-, -, -, i4, -⟩ := hspec
        have hr2 : rem2 = rem := i4 rfl
        have hstop := demandIter_stop_diag state d eff initialQ st rem st2 rem2 hit
        rw [hred]
        rcases hstop with ⟨⟨e, he⟩, hw, hri⟩ | ⟨⟨w, hw⟩, he⟩
        · refine Or.inr (Or.inl ⟨⟨e, he⟩, hw, ?_⟩)
          show rem2 = initialQ
          rw [hr2, hri]
        · exact Or.inr (Or.inr ⟨⟨w, hw⟩, he⟩)
    · have hred : demandLoop state d eff initialQ (n + 1) st rem = (st, rem) := by
        simp only [demandLoop]
        rw [if_neg hr]
      rw [hred]
      exact Or.inl (le_antisymm (not_lt.mp hr) hrem)

/-- With every line cursor inside the planning week, the loop measure lies
strictly below the fuel `schedFuel` hands to the loop. -/
theorem stMeasure_lt_schedFuel (state : AppState) (endDate eff : ℤ) (st : SchedSt)
    (hids : st.schedules.map (·.lineId) = state.lines.map (·.id))
    (heff : eff ≤ endDate)
    (hcur : ∀ s ∈ st.schedules, endDate - 7 ≤ s.currentDate) :
    stMeasure state eff st < schedFuel state := by
  have hlen : st.schedules.length = state.lines.length := by
    have hh := congrArg List.length hids
    simpa using hh
  have hbound : ∀ s ∈ st.schedules, lineMeasure state eff s ≤ 15 := by
    intro s hs
    have h1 := hcur s hs
    have h2 := spareDay_le_one state s
    unfold lineMeasure
    have h3 : (eff - s.currentDate).toNat ≤ 7 := by omega
    omega
  have key : ∀ (L : List LineSchedule), (∀ s ∈ L, lineMeasure state eff s ≤ 15) →
      (L.map (lineMeasure state eff)).sum ≤ 15 * L.length := by
    intro L
    induction L with
    | nil =>
      intro _
      simp
    | cons a L' ih =>
      intro hL
      simp only [List.map_cons, List.sum_cons, List.length_cons]
      have h1 := hL a (by simp)
      have h2 := ih (fun s hs => hL s (by simp [hs]))
      omega
  have hsum := key st.schedules hbound
  unfold stMeasure schedFuel
  omega

/-- C6 amended: the four true directions of the per-demand diagnostic
contract.  For a demand processed from a valid run state whose cursors lie
inside the planning week: (1) if processing appends an error, exactly one
error is appended, nothing of the demand was scheduled (the remaining
quantity equals the full demanded quantity) and no warning is added; (2) if
the demand ends fully scheduled, neither errors nor warnings change; (3) if
the demand does NOT end fully scheduled, a diagnostic is always recorded —
one error (zero scheduled, no warning) or one warning (no error); (4) in
particular a partially scheduled demand (some but not all) always gets
exactly one warning and no error.  The refuted directions are witnessed by
`c6_zero_scheduled_yields_warning_not_error`: zero tons scheduled can come
with a warning instead of an error, so "error iff zero scheduled" and
"warning iff partial" fail. -/
theorem c6_diagnostics_amended (state : AppState) (endDate : ℤ) (st : SchedSt) (d : Demand)
    (hv : ValidState state) (hinv : RunInv state st.schedules st.planItems)
    (hq : 0 ≤ d.quantity)
    (hcur : ∀ s ∈ st.schedules, endDate - 7 ≤ s.currentDate) :
    ((processDemand state endDate st d).1.errors ≠ st.errors →
      (∃ e, (processDemand state endDate st d).1.errors = st.errors ++ [e]) ∧
      (processDemand state endDate st d).2 = d.quantity ∧
      (processDemand state endDate st d).1.warnings = st.warnings) ∧
    ((processDemand state endDate st d).2 = 0 →
      (processDemand state endDate st d).1.errors = st.errors ∧
      (processDemand state endDate st d).1.warnings = st.warnings) ∧
    ((processDemand state endDate st d).2 ≠ 0 →
      ((∃ e, (processDemand state endDate st d).1.errors = st.errors ++ [e]) ∧
        (processDemand state endDate st d).1.warnings = st.warnings ∧
        (processDemand state endDate st d).2 = d.quantity) ∨
      ((∃ w, (processDemand state endDate st d).1.warnings = st.warnings ++ [w]) ∧
        (processDemand state endDate st d).1.errors = st.errors)) ∧
    ((processDemand state endDate st d).2 ≠ 0 →
      (processDemand state endDate st d).2 ≠ d.quantity →
      (∃ w, (processDemand state endDate st d).1.warnings = st.warnings ++ [w]) ∧
      (processDemand state endDate st d).1.errors = st.errors) ∧
    sumQtyFor (processDemand state endDate st d).1.planItems d.referenceId
        + (processDemand state endDate st d).2
      = sumQtyFor st.planItems d.referenceId + d.quantity ∧
    0 ≤ (processDemand state endDate st d).2 ∧
    (processDemand state endDate st d).2 ≤ d.quantity := by
  obtain ⟨-, h2, h3, -, h5, h6, -, h8⟩ :=
    processDemand_spec state endDate st d _ rfl hv hinv hq
  have hpd : processDemand state endDate st d
      = demandLoop state d
          (if (match d.deadline with | some x => x | none => endDate) < endDate
            then (match d.deadline with | some x => x | none => endDate) else endDate)
          d.quantity (schedFuel state) st d.quantity := rfl
  have heff : (if (match d.deadline with | some x => x | none => endDate) < endDate
      then (match d.deadline with | some x => x | none => endDate) else endDate)
      ≤ endDate := by
    split_ifs with h
    · exact le_of_lt h
    · exact le_refl endDate
  have hm := stMeasure_lt_schedFuel state endDate
    (if (match d.deadline with | some x => x | none => endDate) < endDate
      then (match d.deadline with | some x => x | none => endDate) else endDate)
    st hinv.ids heff hcur
  have hd := demandLoop_diag state d
    (if (match d.deadline with | some x => x | none => endDate) < endDate
      then (match d.deadline with | some x => x | none => endDate) else endDate)
    d.quantity hv (schedFuel state) st d.quantity hinv hq hm
  rw [← hpd] at hd
  refine ⟨h6, h8, ?_, ?_, h5, h2, h3⟩
  · intro hz
    rcases hd with h0 | he | hw
    · exact absurd h0 hz
    · exact Or.inl he
    · exact Or.inr hw
  · intro hz hnq
    rcases hd with h0 | ⟨-, -, hq'⟩ | hw
    · exact absurd h0 hz
    · exact absurd hq' hnq
    · exact hw

unseal Rat.add Rat.mul Rat.sub Rat.inv in
/-- Witness for the amended C6 on the failing-setup example. -/
theorem c6_witness :
    ValidState exSetupFail ∧ (0 : ℚ) ≤ 5 ∧
    (∀ s ∈ (⟨initSchedules exSetupFail 4, [], [], []⟩ : SchedSt).schedules,
      (11 : ℤ) - 7 ≤ s.currentDate) ∧
    0 ≤ (processDemand exSetupFail 11
        ⟨initSchedules exSetupFail 4, [], [], []⟩ ⟨"R", 5, none⟩).2 :=
  ⟨by decide, by decide, by decide,
    (c6_diagnostics_amended exSetupFail 11
        ⟨initSchedules exSetupFail 4, [], [], []⟩ ⟨"R", 5, none⟩
        (by decide) (inv_init exSetupFail 4 (by decide)) (by decide)
        (by decide)).2.2.2.2.2.1⟩
